import Mathlib

/-!
Verification of the codelist / schema patch-resolution engine of
`ocdsdocumentationsupport` (profile_builder.py, models.py, __init__.py).

The Python code is shallowly embedded:

* a CSV row (`csv.DictReader` output) is an ordered association list from
  column name to cell value (`Row`); Python dicts have unique keys, which
  appears as `rowWF` hypotheses where it matters;
* the accumulating dictionaries (`codelists`, `originals`) are ordered
  association lists, mirroring Python 3.7+ dict insertion order;
* `assert`/`raise`/`KeyError` are modelled with `Except String`;
* `logger.info`/`print` side channels are modelled as returned `List String`;
* CSV text parsing itself is an I/O shim (out of scope per the spec), so the
  functions that need it take a `parse : String → List Row` collaborator.
-/

namespace ODS

/-- A CSV row: ordered mapping from column name to cell value. -/
abbrev Row := List (String × String)

/-- First-occurrence lookup, as Python `row[key]` / `row.get(key)`. -/
def lookupField : Row → String → Option String
  | [], _ => none
  | (k, v) :: rest, key => if k = key then some v else lookupField rest key

/-- Python `row.pop(key, None)`: returns the removed value (if any) and the
row without that binding. -/
def popField : Row → String → Option String × Row
  | [], _ => (none, [])
  | (k, v) :: rest, key =>
    if k = key then (some v, rest)
    else
      let r := popField rest key
      (r.1, (k, v) :: r.2)

/-- Python `row[key] = val`: updates in place if the key exists, else appends. -/
def setField : Row → String → String → Row
  | [], key, v => [(key, v)]
  | (k, w) :: rest, key, v =>
    if k = key then (key, v) :: rest else (k, w) :: setField rest key v

/-- A Python dict has no duplicate keys; rows produced by `csv.DictReader`
satisfy this. -/
def rowWF (r : Row) : Prop := (r.map Prod.fst).Nodup

instance (r : Row) : Decidable (rowWF r) := by unfold rowWF; infer_instance

/-- Python truthiness of a `row.pop`/`row.get` result: `None` and the empty
string are falsy, any other cell value is truthy. -/
def truthyCell : Option String → Bool
  | none => false
  | some s => !(s = "")

/-- Python `row['Code']`: raises `KeyError` when the column is absent. -/
def rowCode (r : Row) : Except String String :=
  match lookupField r "Code" with
  | some c => .ok c
  | none => .error "KeyError: Code"

/-- Translation of `_append_extension` (profile_builder.py) minus the CSV
decoding: rows whose `Deprecated` value is truthy are dropped (the column is
popped from every row), each surviving row gets `Extension = extName`, and a
log line is emitted per dropped code. -/
def appendExtension (name : String) (rows : List Row) (extName : String) :
    Except String (List Row × List String) :=
  match rows with
  | [] => .ok ([], [])
  | r :: rest =>
    let p := popField r "Deprecated"
    if truthyCell p.1 then
      match rowCode p.2 with
      | .error e => .error e
      | .ok c =>
        match appendExtension name rest extName with
        | .error e => .error e
        | .ok (rs, lgs) =>
          .ok (rs, ("... skipping deprecated code " ++ c ++ " in " ++ name) :: lgs)
    else
      match appendExtension name rest extName with
      | .error e => .error e
      | .ok (rs, lgs) => .ok (setField p.2 "Extension" extName :: rs, lgs)

/-! ### Ordered dictionaries keyed by codelist filename -/

/-- An insertion-ordered dictionary, as Python's dict. -/
abbrev Table (α : Type) := List (String × α)

def lookupKeyT {α} : Table α → String → Option α
  | [], _ => none
  | (k, v) :: rest, key => if k = key then some v else lookupKeyT rest key

def hasKeyT {α} (t : Table α) (key : String) : Bool := (lookupKeyT t key).isSome

/-- Python `d[key] = v`: update in place, else append. -/
def setKeyT {α} : Table α → String → α → Table α
  | [], key, v => [(key, v)]
  | (k, w) :: rest, key, v =>
    if k = key then (key, v) :: rest else (k, w) :: setKeyT rest key v

/-- Python `del d[key]` (keys are unique, so first occurrence). -/
def delKeyT {α} : Table α → String → Table α
  | [], _ => []
  | (k, v) :: rest, key => if k = key then rest else (k, v) :: delKeyT rest key

def keysT {α} (t : Table α) : List String := t.map Prod.fst

def tableWF {α} (t : Table α) : Prop := (keysT t).Nodup

instance {α} (t : Table α) : Decidable (tableWF t) := by
  unfold tableWF; infer_instance

/-! ### Codelist name forms: `name.csv`, `+name.csv`, `-name.csv` -/

/-- Python `name.startswith(('+', '-'))`. -/
def isPatchName (s : String) : Bool :=
  match s.data with
  | c :: _ => c = '+' || c = '-'
  | [] => false

/-- Python `name.startswith('+')`. -/
def isAddName (s : String) : Bool :=
  match s.data with
  | c :: _ => c = '+'
  | [] => false

/-- Python `name[1:]`. -/
def dropFirst (s : String) : String := String.mk (s.data.drop 1)

/-! ### Step 1: per-extension collection (`ProfileBuilder.codelist_patches`) -/

/-- What an extension contributes: its English display name and its declared
codelists as (filename, raw CSV content) pairs, in declaration order. -/
structure ExtContrib where
  extName : String
  files : List (String × String)

/-- A Python `for` loop threading a state, where the body may raise. -/
def foldE {σ β : Type} (f : σ → β → Except String σ) : σ → List β → Except String σ
  | s, [] => .ok s
  | s, x :: xs =>
    match f s x with
    | .error e => .error e
    | .ok s' => foldE f s' xs

/-- One iteration of the collection loop in `codelist_patches`: parse and
process the content, then either store it (new filename), concatenate it
(patch already seen) or check raw-content identity (full codelist already
seen; `assert originals[name] == content`). -/
def accumOne (parse : String → List Row) (ename : String)
    (st : Table (List Row) × Table String × List String) (file : String × String) :
    Except String (Table (List Row) × Table String × List String) :=
  match appendExtension file.1 (parse file.2) ename with
  | .error e => .error e
  | .ok (rows, lg) =>
    match lookupKeyT st.1 file.1 with
    | some old =>
      if isPatchName file.1 then
        .ok (setKeyT st.1 file.1 (old ++ rows), st.2.1, st.2.2 ++ lg)
      else
        match lookupKeyT st.2.1 file.1 with
        | some c0 =>
          if c0 = file.2 then .ok (st.1, st.2.1, st.2.2 ++ lg)
          else .error ("codelist " ++ file.1 ++ " is different across extensions")
        | none => .error "KeyError: originals"
    | none =>
      .ok (st.1 ++ [(file.1, rows)], st.2.1 ++ [(file.1, file.2)], st.2.2 ++ lg)

/-- The inner loop of `codelist_patches`: one extension's declared codelists. -/
def accumExt (parse : String → List Row)
    (st : Table (List Row) × Table String × List String) (e : ExtContrib) :
    Except String (Table (List Row) × Table String × List String) :=
  foldE (accumOne parse e.extName) st e.files

/-- The full collection pass over the extensions, in registration order. -/
def accumulateCodelists (parse : String → List Row) (exts : List ExtContrib) :
    Except String (Table (List Row) × Table String × List String) :=
  foldE (accumExt parse) ([], [], []) exts

/-! ### Step 2: patch collapsing (`codelist_patches`, second loop) -/

def collapseMsgAdd (code name base : String) : String :=
  code ++ " added by " ++ name ++ ", but not in " ++ base

def collapseMsgRem (code name base : String) : String :=
  code ++ " removed by " ++ name ++ ", but in " ++ base

def ignoreMsgAdd (name base : String) : String :=
  base ++ " has the codes added by " ++ name ++ ", ignoring " ++ name

def ignoreMsgRem (name base : String) : String :=
  base ++ " has no codes removed by " ++ name ++ ", ignoring " ++ name

/-- Python `[row['Code'] for row in rows]`. -/
def codesOf : List Row → Except String (List String)
  | [] => .ok []
  | r :: rest =>
    match rowCode r with
    | .error e => .error e
    | .ok c =>
      match codesOf rest with
      | .error e => .error e
      | .ok cs => .ok (c :: cs)

/-- The `assert code in codes` scan of the additive-collapse branch. -/
def checkAdded (codes : List String) (name base : String) :
    List Row → Except String Unit
  | [] => .ok ()
  | r :: rest =>
    match rowCode r with
    | .error e => .error e
    | .ok c =>
      if codes.contains c then checkAdded codes name base rest
      else .error (collapseMsgAdd c name base)

/-- The `assert code not in codes` scan of the subtractive-collapse branch. -/
def checkRemoved (codes : List String) (name base : String) :
    List Row → Except String Unit
  | [] => .ok ()
  | r :: rest =>
    match rowCode r with
    | .error e => .error e
    | .ok c =>
      if codes.contains c then .error (collapseMsgRem c name base)
      else checkRemoved codes name base rest

/-- The collapsing loop body, iterating the snapshot `list(codelists.keys())`
while mutating the dictionary. -/
def collapseGo : List String → Table (List Row) →
    Except String (Table (List Row) × List String)
  | [], acc => .ok (acc, [])
  | name :: rest, acc =>
    if isPatchName name && hasKeyT acc (dropFirst name) then
      match lookupKeyT acc (dropFirst name), lookupKeyT acc name with
      | some baseRows, some patRows =>
        (match codesOf baseRows with
         | .error e => .error e
         | .ok codes =>
           if isAddName name then
             match checkAdded codes name (dropFirst name) patRows with
             | .error e => .error e
             | .ok _ =>
               match collapseGo rest (delKeyT acc name) with
               | .error e => .error e
               | .ok (t, lgs) => .ok (t, ignoreMsgAdd name (dropFirst name) :: lgs)
           else
             match checkRemoved codes name (dropFirst name) patRows with
             | .error e => .error e
             | .ok _ =>
               match collapseGo rest (delKeyT acc name) with
               | .error e => .error e
               | .ok (t, lgs) => .ok (t, ignoreMsgRem name (dropFirst name) :: lgs))
      | _, _ => .error "KeyError: codelists"
    else collapseGo rest acc

/-- Step 2 as a whole: collapse redundant patches against full replacements. -/
def collapsePatches (t : Table (List Row)) :
    Except String (Table (List Row) × List String) :=
  collapseGo (keysT t) t

/-- Translation of `ProfileBuilder.codelist_patches`: collection then
collapsing, with the informational log lines concatenated in emission order. -/
def codelistPatches (parse : String → List Row) (exts : List ExtContrib) :
    Except String (Table (List Row) × List String) :=
  match accumulateCodelists parse exts with
  | .error e => .error e
  | .ok (codelists, _originals, logs) =>
    match collapsePatches codelists with
    | .error e => .error e
    | .ok (t, lgs) => .ok (t, logs ++ lgs)

/-! ### Step 3: application to the base set (`ProfileBuilder.patched_codelists`) -/

/-- Python `[row for row in codelists[basename] if row['Code'] not in removed]`. -/
def filterRemoved (removed : List String) : List Row → Except String (List Row)
  | [] => .ok []
  | r :: rest =>
    match rowCode r with
    | .error e => .error e
    | .ok c =>
      match filterRemoved removed rest with
      | .error e => .error e
      | .ok tail => if removed.contains c then .ok tail else .ok (r :: tail)

/-- One iteration of the application loop of `patched_codelists`: full
codelists replace, `+` patches append, `-` patches remove by `Code`. -/
def applyOne (acc : Table (List Row)) (nr : String × List Row) :
    Except String (Table (List Row)) :=
  if isPatchName nr.1 then
    match lookupKeyT acc (dropFirst nr.1) with
    | some cur =>
      if isAddName nr.1 then .ok (setKeyT acc (dropFirst nr.1) (cur ++ nr.2))
      else
        match codesOf nr.2 with
        | .error e => .error e
        | .ok removed =>
          match filterRemoved removed cur with
          | .error e => .error e
          | .ok newRows => .ok (setKeyT acc (dropFirst nr.1) newRows)
    | none => .error ("KeyError: " ++ dropFirst nr.1)
  else .ok (setKeyT acc nr.1 nr.2)

def applyPatches (base : Table (List Row)) (patches : Table (List Row)) :
    Except String (Table (List Row)) :=
  foldE applyOne base patches

/-- One file of `standard_codelists`: `codelists[name] = _append_extension(...)`. -/
def standardStep (st : Table (List Row) × List String) (f : String × List Row) :
    Except String (Table (List Row) × List String) :=
  match appendExtension f.1 f.2 "OCDS Core" with
  | .error e => .error e
  | .ok (rows, lg) => .ok (setKeyT st.1 f.1 rows, st.2 ++ lg)

/-- Translation of `ProfileBuilder.standard_codelists`: each standard codelist
file (here received already split into rows by the CSV collaborator) goes
through `_append_extension` tagged `OCDS Core`. -/
def standardCodelists (files : List (String × List Row)) :
    Except String (Table (List Row) × List String) :=
  foldE standardStep ([], []) files

/-- Translation of `ProfileBuilder.patched_codelists`. -/
def patchedCodelists (parse : String → List Row) (files : List (String × List Row))
    (exts : List ExtContrib) : Except String (Table (List Row) × List String) :=
  match standardCodelists files with
  | .error e => .error e
  | .ok (std, lg1) =>
    match codelistPatches parse exts with
    | .error e => .error e
    | .ok (patches, lg2) =>
      match applyPatches std patches with
      | .error e => .error e
      | .ok t => .ok (t, lg1 ++ lg2)

/-! ### `Codelist.remove_deprecated_codes` (models.py) -/

/-- Translation of `Codelist.remove_deprecated_codes`: pops `Deprecated` from
every row and keeps only the rows where the popped value is falsy. -/
def removeDeprecatedCodes : List Row → List Row
  | [] => []
  | r :: rest =>
    let p := popField r "Deprecated"
    if truthyCell p.1 then removeDeprecatedCodes rest
    else p.2 :: removeDeprecatedCodes rest

/-! ### `process_codelist` (`apply_extensions` in __init__.py), additive branch -/

/-- A compiled codelist CSV file: header order plus rows. -/
structure CsvFile where
  fieldnames : List String
  rows : List Row
deriving DecidableEq

def validFieldnames : List String := ["Code", "Title", "Description", "Extension"]

/-- Translation of `pluck_fieldnames`. -/
def pluckFieldnames (fieldnames : List String) (basename : String) : List String :=
  if basename = "documentType.csv" then fieldnames
  else fieldnames.filter (fun f => validFieldnames.contains f)

/-- Translation of `add_extension_to_rows` (note: `row.get`, not `pop`, so the
`Deprecated` column is left in place here). -/
def addExtensionToRows (rows : List Row) (extensionName basename : String) :
    Except String (List Row × List String) :=
  match rows with
  | [] => .ok ([], [])
  | r :: rest =>
    if truthyCell (lookupField r "Deprecated") then
      match rowCode r with
      | .error e => .error e
      | .ok c =>
        match addExtensionToRows rest extensionName basename with
        | .error e => .error e
        | .ok (rs, lgs) =>
          .ok (rs, ("... skipping deprecated code " ++ c ++ " in " ++ basename) :: lgs)
    else
      match addExtensionToRows rest extensionName basename with
      | .error e => .error e
      | .ok (rs, lgs) => .ok (setField r "Extension" extensionName :: rs, lgs)

def fieldsMismatchMsg (name extensionName : String) : String :=
  "Codelist " ++ name ++ " from " ++ extensionName ++ " has different fields than the base codelist"

/-- `csv.DictWriter` with `extrasaction='ignore'` and default `restval`:
each written row carries exactly the header's columns, missing cells empty. -/
def projectRow (fieldnames : List String) (r : Row) : Row :=
  fieldnames.map (fun f => (f, (lookupField r f).getD ""))

/-- Translation of the `+` branch of `process_codelist`: `name` is the full
patch filename (`+base.csv`), `base` the compiled base codelist if the file
exists. On field mismatch the whole resolution aborts before anything is
written; on success the rewritten compiled file is returned. -/
def processCodelistAdd (name : String) (base : Option CsvFile) (patch : CsvFile)
    (extensionName : String) : Except String (CsvFile × List String) :=
  match base with
  | none => .error ("Base codelist for " ++ name ++ " is missing")
  | some baseFile =>
    if pluckFieldnames baseFile.fieldnames name
        = pluckFieldnames patch.fieldnames name ++ ["Extension"] then
      match addExtensionToRows patch.rows extensionName name with
      | .error e => .error e
      | .ok (newRows, lgs) =>
        .ok (⟨baseFile.fieldnames,
              (baseFile.rows ++ newRows).map (projectRow baseFile.fieldnames)⟩, lgs)
    else .error (fieldsMismatchMsg name extensionName)

/-! ### Row lemmas -/

/-! ### Row lemmas -/

theorem lookupField_eq_none_of_not_mem {r : Row} {k : String}
    (h : k ∉ r.map Prod.fst) : lookupField r k = none := by
  induction r with
  | nil => rfl
  | cons p rest ih =>
    obtain ⟨k', v⟩ := p
    simp only [List.map_cons, List.mem_cons, not_or] at h
    have hne : ¬(k' = k) := fun e => h.1 e.symm
    simp only [lookupField, if_neg hne]
    exact ih h.2

theorem popField_of_lookup_none {r : Row} {k : String}
    (h : lookupField r k = none) : popField r k = (none, r) := by
  induction r with
  | nil => rfl
  | cons p rest ih =>
    obtain ⟨k', v⟩ := p
    by_cases hk : k' = k
    · simp [lookupField, hk] at h
    · simp only [lookupField, if_neg hk] at h
      simp [popField, if_neg hk, ih h]

theorem lookupField_popField_self {r : Row} {k : String} (h : rowWF r) :
    lookupField (popField r k).2 k = none := by
  induction r with
  | nil => rfl
  | cons p rest ih =>
    obtain ⟨k', v⟩ := p
    simp only [rowWF, List.map_cons, List.nodup_cons] at h
    by_cases hk : k' = k
    · subst hk
      simp only [popField, if_pos rfl]
      exact lookupField_eq_none_of_not_mem h.1
    · simp only [popField, if_neg hk, lookupField, if_neg hk]
      exact ih h.2

theorem keys_popField (r : Row) (k : String) :
    ((popField r k).2.map Prod.fst).Sublist (r.map Prod.fst) := by
  induction r with
  | nil => simp [popField]
  | cons p rest ih =>
    obtain ⟨k', v⟩ := p
    by_cases hk : k' = k
    · simp only [popField, if_pos hk, List.map_cons]
      exact List.sublist_cons_self _ _
    · simp only [popField, if_neg hk, List.map_cons]
      exact ih.cons₂ k'

theorem rowWF_popField {r : Row} (k : String) (h : rowWF r) :
    rowWF (popField r k).2 :=
  List.Nodup.sublist (keys_popField r k) h

theorem lookupField_setField_ne {r : Row} {k k' : String} (v : String)
    (h : k' ≠ k) : lookupField (setField r k v) k' = lookupField r k' := by
  have hne : ¬(k = k') := fun e => h e.symm
  induction r with
  | nil => simp [setField, lookupField, if_neg hne]
  | cons p rest ih =>
    obtain ⟨k0, v0⟩ := p
    by_cases hk : k0 = k
    · subst hk
      simp [setField, lookupField, if_neg hne]
    · simp only [setField, if_neg hk, lookupField]
      by_cases hk' : k0 = k'
      · simp [if_pos hk']
      · simp [if_neg hk', ih]

theorem setField_setField (r : Row) (k v : String) :
    setField (setField r k v) k v = setField r k v := by
  induction r with
  | nil => simp [setField]
  | cons p rest ih =>
    obtain ⟨k0, v0⟩ := p
    by_cases hk : k0 = k
    · simp [setField, hk]
    · simp [setField, if_neg hk, ih]

theorem keys_setField (r : Row) (k v : String) :
    (setField r k v).map Prod.fst = r.map Prod.fst ∨
      (setField r k v).map Prod.fst = r.map Prod.fst ++ [k] := by
  induction r with
  | nil => right; simp [setField]
  | cons p rest ih =>
    obtain ⟨k0, v0⟩ := p
    by_cases hk : k0 = k
    · left; simp [setField, hk]
    · rcases ih with h | h
      · left; simp [setField, if_neg hk, h]
      · right; simp [setField, if_neg hk, h]

theorem rowWF_setField {r : Row} {k : String} (v : String) (h : rowWF r) :
    rowWF (setField r k v) := by
  induction r with
  | nil => simp [rowWF, setField]
  | cons p rest ih =>
    obtain ⟨k0, v0⟩ := p
    simp only [rowWF, List.map_cons, List.nodup_cons] at h
    by_cases hk : k0 = k
    · subst hk
      simp only [rowWF, setField, eq_self_iff_true, if_true, List.map_cons,
        List.nodup_cons]
      exact h
    · have hrest := ih h.2
      simp only [rowWF, setField, if_neg hk, List.map_cons, List.nodup_cons]
      refine ⟨?_, hrest⟩
      rcases keys_setField rest k v with he | he
      · rw [he]; exact h.1
      · rw [he]
        simp only [List.mem_append, List.mem_singleton]
        rintro (hm | rfl)
        · exact h.1 hm
        · exact hk rfl

/-! ### Table lemmas -/

theorem mem_setKeyT {α} {t : Table α} {k : String} {v : α} {p : String × α}
    (h : p ∈ setKeyT t k v) : p ∈ t ∨ p = (k, v) := by
  induction t with
  | nil =>
    simp only [setKeyT, List.mem_singleton] at h
    right; exact h
  | cons q rest ih =>
    obtain ⟨k0, v0⟩ := q
    by_cases hk : k0 = k
    · simp only [setKeyT, if_pos hk, List.mem_cons] at h
      rcases h with rfl | h
      · right; rfl
      · left; exact List.mem_cons_of_mem _ h
    · simp only [setKeyT, if_neg hk, List.mem_cons] at h
      rcases h with rfl | h
      · left; exact List.mem_cons_self _ _
      · rcases ih h with h' | h'
        · left; exact List.mem_cons_of_mem _ h'
        · right; exact h'

theorem mem_delKeyT {α} {t : Table α} {k : String} {p : String × α}
    (h : p ∈ delKeyT t k) : p ∈ t := by
  induction t with
  | nil => simp [delKeyT] at h
  | cons q rest ih =>
    obtain ⟨k0, v0⟩ := q
    by_cases hk : k0 = k
    · simp only [delKeyT, if_pos hk] at h
      exact List.mem_cons_of_mem _ h
    · simp only [delKeyT, if_neg hk, List.mem_cons] at h
      rcases h with rfl | h
      · exact List.mem_cons_self _ _
      · exact List.mem_cons_of_mem _ (ih h)

theorem lookupKeyT_mem {α} {t : Table α} {k : String} {v : α}
    (h : lookupKeyT t k = some v) : (k, v) ∈ t := by
  induction t with
  | nil => simp [lookupKeyT] at h
  | cons q rest ih =>
    obtain ⟨k0, v0⟩ := q
    by_cases hk : k0 = k
    · simp only [lookupKeyT, if_pos hk, Option.some.injEq] at h
      subst hk; subst h
      exact List.mem_cons_self _ _
    · simp only [lookupKeyT, if_neg hk] at h
      exact List.mem_cons_of_mem _ (ih h)

theorem lookupKeyT_setKeyT_self {α} (t : Table α) (k : String) (v : α) :
    lookupKeyT (setKeyT t k v) k = some v := by
  induction t with
  | nil => simp [setKeyT, lookupKeyT]
  | cons q rest ih =>
    obtain ⟨k0, v0⟩ := q
    by_cases hk : k0 = k
    · simp [setKeyT, if_pos hk, lookupKeyT]
    · simp [setKeyT, if_neg hk, lookupKeyT, if_neg hk, ih]

theorem lookupKeyT_setKeyT_ne {α} (t : Table α) {k k' : String} (v : α)
    (h : k' ≠ k) : lookupKeyT (setKeyT t k v) k' = lookupKeyT t k' := by
  have hne : ¬(k = k') := fun e => h e.symm
  induction t with
  | nil => simp [setKeyT, lookupKeyT, if_neg hne]
  | cons q rest ih =>
    obtain ⟨k0, v0⟩ := q
    by_cases hk : k0 = k
    · subst hk
      simp [setKeyT, lookupKeyT, if_neg hne]
    · simp only [setKeyT, if_neg hk, lookupKeyT]
      by_cases hk' : k0 = k'
      · simp [if_pos hk']
      · simp [if_neg hk', ih]

theorem lookupKeyT_delKeyT_ne {α} (t : Table α) {k k' : String}
    (h : k' ≠ k) : lookupKeyT (delKeyT t k) k' = lookupKeyT t k' := by
  induction t with
  | nil => simp [delKeyT, lookupKeyT]
  | cons q rest ih =>
    obtain ⟨k0, v0⟩ := q
    by_cases hk : k0 = k
    · subst hk
      have hne : ¬(k0 = k') := fun e => h e.symm
      simp [delKeyT, lookupKeyT, if_neg hne]
    · simp only [delKeyT, if_neg hk, lookupKeyT]
      by_cases hk' : k0 = k'
      · simp [if_pos hk']
      · simp [if_neg hk', ih]

theorem lookupField_setField_self (r : Row) (k v : String) :
    lookupField (setField r k v) k = some v := by
  induction r with
  | nil => simp [setField, lookupField]
  | cons p rest ih =>
    obtain ⟨k0, v0⟩ := p
    by_cases hk : k0 = k
    · simp [setField, if_pos hk, lookupField]
    · simp [setField, if_neg hk, lookupField, if_neg hk, ih]

/-! ### Behaviour of the deprecation filter -/

theorem removeDeprecatedCodes_no_deprecated {rows : List Row}
    (hwf : ∀ r ∈ rows, rowWF r) :
    ∀ r ∈ removeDeprecatedCodes rows, lookupField r "Deprecated" = none := by
  induction rows with
  | nil => intro r hr; simp [removeDeprecatedCodes] at hr
  | cons r rest ih =>
    have hr := hwf r (List.mem_cons_self _ _)
    have hrest := ih (fun x hx => hwf x (List.mem_cons_of_mem _ hx))
    intro x hx
    simp only [removeDeprecatedCodes] at hx
    by_cases ht : truthyCell (popField r "Deprecated").1
    · rw [if_pos ht] at hx
      exact hrest x hx
    · rw [if_neg ht] at hx
      rcases List.mem_cons.mp hx with rfl | hm
      · exact lookupField_popField_self hr
      · exact hrest x hm

theorem removeDeprecatedCodes_fixed {rows : List Row}
    (h : ∀ r ∈ rows, lookupField r "Deprecated" = none) :
    removeDeprecatedCodes rows = rows := by
  induction rows with
  | nil => rfl
  | cons r rest ih =>
    have hr := h r (List.mem_cons_self _ _)
    have hrest := ih (fun x hx => h x (List.mem_cons_of_mem _ hx))
    simp only [removeDeprecatedCodes]
    rw [popField_of_lookup_none hr]
    simp [truthyCell, hrest]

theorem appendExtension_mem_ok {name extName : String} :
    ∀ {rows rs : List Row} {lgs : List String}, (∀ r ∈ rows, rowWF r) →
      appendExtension name rows extName = .ok (rs, lgs) →
      ∀ r' ∈ rs, ∃ q, rowWF q ∧ lookupField q "Deprecated" = none ∧
        r' = setField q "Extension" extName := by
  intro rows
  induction rows with
  | nil =>
    intro rs lgs _ h r' hr'
    simp only [appendExtension] at h
    cases h
    simp at hr'
  | cons r rest ih =>
    intro rs lgs hwf h r' hr'
    have hwr : rowWF r := hwf r (List.mem_cons_self _ _)
    have hwrest : ∀ x ∈ rest, rowWF x := fun x hx => hwf x (List.mem_cons_of_mem _ hx)
    simp only [appendExtension] at h
    by_cases ht : truthyCell (popField r "Deprecated").1
    · rw [if_pos ht] at h
      cases hc : rowCode (popField r "Deprecated").2 with
      | error e => rw [hc] at h; simp at h
      | ok c =>
        rw [hc] at h
        cases ha : appendExtension name rest extName with
        | error e => rw [ha] at h; simp at h
        | ok pr =>
          obtain ⟨rs0, lgs0⟩ := pr
          rw [ha] at h
          simp only [Except.ok.injEq, Prod.mk.injEq] at h
          obtain ⟨rfl, rfl⟩ := h
          exact ih hwrest ha r' hr'
    · rw [if_neg ht] at h
      cases ha : appendExtension name rest extName with
      | error e => rw [ha] at h; simp at h
      | ok pr =>
        obtain ⟨rs0, lgs0⟩ := pr
        rw [ha] at h
        simp only [Except.ok.injEq, Prod.mk.injEq] at h
        obtain ⟨rfl, rfl⟩ := h
        rcases List.mem_cons.mp hr' with rfl | hm
        · exact ⟨(popField r "Deprecated").2, rowWF_popField _ hwr,
            lookupField_popField_self hwr, rfl⟩
        · exact ih hwrest ha r' hm

theorem appendExtension_of_clean (name extName : String) :
    ∀ rows : List Row,
      (∀ r ∈ rows, lookupField r "Deprecated" = none ∧
        setField r "Extension" extName = r) →
      appendExtension name rows extName = .ok (rows, []) := by
  intro rows
  induction rows with
  | nil => intro _; rfl
  | cons r rest ih =>
    intro h
    have hr := h r (List.mem_cons_self _ _)
    have hrest := ih (fun x hx => h x (List.mem_cons_of_mem _ hx))
    simp only [appendExtension]
    rw [popField_of_lookup_none hr.1]
    simp [truthyCell, hrest, hr.2]

/-- C9: applying the deprecation-skip transform to an already-filtered table
returns the same rows unchanged and logs no skip events: this holds for
`Codelist.remove_deprecated_codes` (models.py) and for re-running
`_append_extension`'s filter (profile_builder.py) over its own output. -/
theorem deprecation_filter_idempotent (rows : List Row)
    (hwf : ∀ r ∈ rows, rowWF r) :
    removeDeprecatedCodes (removeDeprecatedCodes rows) = removeDeprecatedCodes rows ∧
    ∀ name extName rs lgs, appendExtension name rows extName = .ok (rs, lgs) →
      appendExtension name rs extName = .ok (rs, []) := by
  constructor
  · exact removeDeprecatedCodes_fixed (removeDeprecatedCodes_no_deprecated hwf)
  · intro name extName rs lgs h
    apply appendExtension_of_clean
    intro r' hr'
    obtain ⟨q, hq, hdep, rfl⟩ := appendExtension_mem_ok hwf h r' hr'
    constructor
    · rw [lookupField_setField_ne _ (by decide)]
      exact hdep
    · exact setField_setField q "Extension" extName

/-- Witness for C9 at a concrete two-row table (one deprecated row). -/
theorem deprecation_filter_idempotent_witness :
    (∀ r ∈ [[("Code", "open"), ("Title", "Open")],
            [("Code", "old"), ("Deprecated", "true")]], rowWF r) ∧
    (removeDeprecatedCodes (removeDeprecatedCodes
        [[("Code", "open"), ("Title", "Open")],
         [("Code", "old"), ("Deprecated", "true")]]) =
      removeDeprecatedCodes
        [[("Code", "open"), ("Title", "Open")],
         [("Code", "old"), ("Deprecated", "true")]] ∧
     ∀ name extName rs lgs,
       appendExtension name
          [[("Code", "open"), ("Title", "Open")],
           [("Code", "old"), ("Deprecated", "true")]] extName = .ok (rs, lgs) →
       appendExtension name rs extName = .ok (rs, [])) :=
  ⟨by decide, deprecation_filter_idempotent _ (by decide)⟩

/-! ### C10: the `Deprecated` column never survives into any returned table -/

theorem not_mem_of_lookupField_none {r : Row} {k : String}
    (h : lookupField r k = none) : k ∉ r.map Prod.fst := by
  induction r with
  | nil => simp
  | cons p rest ih =>
    obtain ⟨k0, v0⟩ := p
    by_cases hk : k0 = k
    · simp [lookupField, if_pos hk] at h
    · simp only [lookupField, if_neg hk] at h
      simp only [List.map_cons, List.mem_cons, not_or]
      exact ⟨fun e => hk e.symm, ih h⟩

theorem foldE_inv {σ β : Type} (f : σ → β → Except String σ) (P : σ → Prop)
    (Q : β → Prop)
    (hstep : ∀ s x, Q x → P s → ∀ s', f s x = .ok s' → P s') :
    ∀ (xs : List β) (s s' : σ), (∀ x ∈ xs, Q x) → P s →
      foldE f s xs = .ok s' → P s' := by
  intro xs
  induction xs with
  | nil =>
    intro s s' _ hp h
    simp only [foldE] at h
    cases h
    exact hp
  | cons x rest ih =>
    intro s s' hq hp h
    simp only [foldE] at h
    cases hf : f s x with
    | error e => rw [hf] at h; simp at h
    | ok s1 =>
      rw [hf] at h
      exact ih s1 s' (fun y hy => hq y (List.mem_cons_of_mem _ hy))
        (hstep s x (hq x (List.mem_cons_self _ _)) hp s1 hf) h

/-- Rows with no `Deprecated` binding. -/
def rowsND (rows : List Row) : Prop :=
  ∀ r ∈ rows, lookupField r "Deprecated" = none

/-- Tables all of whose rows have no `Deprecated` binding. -/
def tableND (t : Table (List Row)) : Prop := ∀ p ∈ t, rowsND p.2

theorem appendExtension_ok_nd {name extName : String} {rows rs : List Row}
    {lgs : List String} (hwf : ∀ r ∈ rows, rowWF r)
    (h : appendExtension name rows extName = .ok (rs, lgs)) : rowsND rs := by
  intro r' hr'
  obtain ⟨q, _, hdep, rfl⟩ := appendExtension_mem_ok hwf h r' hr'
  rw [lookupField_setField_ne _ (by decide)]
  exact hdep

theorem mem_filterRemoved {removed : List String} :
    ∀ {rows out : List Row}, filterRemoved removed rows = .ok out →
      ∀ r ∈ out, r ∈ rows := by
  intro rows
  induction rows with
  | nil =>
    intro out h r hr
    simp only [filterRemoved] at h
    cases h
    simp at hr
  | cons r0 rest ih =>
    intro out h r hr
    simp only [filterRemoved] at h
    cases hc : rowCode r0 with
    | error e => rw [hc] at h; simp at h
    | ok c =>
      rw [hc] at h
      cases hf : filterRemoved removed rest with
      | error e => rw [hf] at h; simp at h
      | ok tail =>
        rw [hf] at h
        dsimp only at h
        by_cases hm : removed.contains c
        · rw [if_pos hm] at h
          cases h
          exact List.mem_cons_of_mem _ (ih hf r hr)
        · rw [if_neg hm] at h
          cases h
          rcases List.mem_cons.mp hr with rfl | hm'
          · exact List.mem_cons_self _ _
          · exact List.mem_cons_of_mem _ (ih hf r hm')

theorem standardStep_nd (s : Table (List Row) × List String) (f : String × List Row)
    (hq : ∀ r ∈ f.2, rowWF r) (hp : tableND s.1) :
    ∀ s', standardStep s f = .ok s' → tableND s'.1 := by
  intro s' h
  simp only [standardStep] at h
  cases ha : appendExtension f.1 f.2 "OCDS Core" with
  | error e => rw [ha] at h; simp at h
  | ok pr =>
    obtain ⟨rows, lg⟩ := pr
    rw [ha] at h
    cases h
    intro p hp'
    rcases mem_setKeyT hp' with hm | rfl
    · exact hp p hm
    · exact appendExtension_ok_nd hq ha

theorem accumOne_nd (parse : String → List Row) (ename : String)
    (s : Table (List Row) × Table String × List String) (file : String × String)
    (hq : ∀ r ∈ parse file.2, rowWF r) (hp : tableND s.1) :
    ∀ s', accumOne parse ename s file = .ok s' → tableND s'.1 := by
  intro s' h
  simp only [accumOne] at h
  cases ha : appendExtension file.1 (parse file.2) ename with
  | error e => rw [ha] at h; simp at h
  | ok pr =>
    obtain ⟨rows, lg⟩ := pr
    rw [ha] at h
    have hnd : rowsND rows := appendExtension_ok_nd hq ha
    cases hl : lookupKeyT s.1 file.1 with
    | some old =>
      rw [hl] at h
      dsimp only at h
      by_cases hpn : isPatchName file.1
      · rw [if_pos hpn] at h
        cases h
        intro p hp'
        rcases mem_setKeyT hp' with hm | rfl
        · exact hp p hm
        · intro r hr
          rcases List.mem_append.mp hr with hm | hm
          · exact hp _ (lookupKeyT_mem hl) r hm
          · exact hnd r hm
      · rw [if_neg hpn] at h
        cases hlo : lookupKeyT s.2.1 file.1 with
        | some c0 =>
          rw [hlo] at h
          dsimp only at h
          by_cases hc : c0 = file.2
          · rw [if_pos hc] at h
            cases h
            exact hp
          · rw [if_neg hc] at h
            simp at h
        | none => rw [hlo] at h; simp at h
    | none =>
      rw [hl] at h
      dsimp only at h
      cases h
      intro p hp'
      rcases List.mem_append.mp hp' with hm | hm
      · exact hp p hm
      · rcases List.mem_singleton.mp hm with rfl
        exact hnd

theorem collapseGo_nd :
    ∀ (names : List String) (acc : Table (List Row))
      (res : Table (List Row) × List String), tableND acc →
      collapseGo names acc = .ok res → tableND res.1 := by
  intro names
  induction names with
  | nil =>
    intro acc res hp h
    simp only [collapseGo] at h
    cases h
    exact hp
  | cons name rest ih =>
    intro acc res hp h
    simp only [collapseGo] at h
    by_cases hc : (isPatchName name && hasKeyT acc (dropFirst name)) = true
    · rw [if_pos hc] at h
      cases hl1 : lookupKeyT acc (dropFirst name) with
      | none => rw [hl1] at h; simp at h
      | some baseRows =>
        cases hl2 : lookupKeyT acc name with
        | none => rw [hl1, hl2] at h; simp at h
        | some patRows =>
          rw [hl1, hl2] at h
          dsimp only at h
          cases hcs : codesOf baseRows with
          | error e => rw [hcs] at h; simp at h
          | ok codes =>
            rw [hcs] at h
            dsimp only at h
            have hdel : tableND (delKeyT acc name) :=
              fun p hm => hp p (mem_delKeyT hm)
            by_cases hadd : isAddName name
            · rw [if_pos hadd] at h
              cases hchk : checkAdded codes name (dropFirst name) patRows with
              | error e => rw [hchk] at h; simp at h
              | ok u =>
                rw [hchk] at h
                cases hgo : collapseGo rest (delKeyT acc name) with
                | error e => rw [hgo] at h; simp at h
                | ok pr =>
                  obtain ⟨t, lgs⟩ := pr
                  rw [hgo] at h
                  cases h
                  exact ih _ (t, lgs) hdel hgo
            · rw [if_neg hadd] at h
              cases hchk : checkRemoved codes name (dropFirst name) patRows with
              | error e => rw [hchk] at h; simp at h
              | ok u =>
                rw [hchk] at h
                cases hgo : collapseGo rest (delKeyT acc name) with
                | error e => rw [hgo] at h; simp at h
                | ok pr =>
                  obtain ⟨t, lgs⟩ := pr
                  rw [hgo] at h
                  cases h
                  exact ih _ (t, lgs) hdel hgo
    · rw [if_neg hc] at h
      exact ih _ _ hp h

theorem applyOne_nd (s : Table (List Row)) (nr : String × List Row)
    (hq : rowsND nr.2) (hp : tableND s) :
    ∀ s', applyOne s nr = .ok s' → tableND s' := by
  intro s' h
  simp only [applyOne] at h
  by_cases hpn : isPatchName nr.1
  · rw [if_pos hpn] at h
    cases hl : lookupKeyT s (dropFirst nr.1) with
    | none => rw [hl] at h; simp at h
    | some cur =>
      rw [hl] at h
      dsimp only at h
      have hcur : rowsND cur := hp _ (lookupKeyT_mem hl)
      by_cases hadd : isAddName nr.1
      · rw [if_pos hadd] at h
        cases h
        intro p hp'
        rcases mem_setKeyT hp' with hm | rfl
        · exact hp p hm
        · intro r hr
          rcases List.mem_append.mp hr with hm | hm
          · exact hcur r hm
          · exact hq r hm
      · rw [if_neg hadd] at h
        cases hcs : codesOf nr.2 with
        | error e => rw [hcs] at h; simp at h
        | ok removed =>
          rw [hcs] at h
          dsimp only at h
          cases hf : filterRemoved removed cur with
          | error e => rw [hf] at h; simp at h
          | ok newRows =>
            rw [hf] at h
            cases h
            intro p hp'
            rcases mem_setKeyT hp' with hm | rfl
            · exact hp p hm
            · exact fun r hr => hcur r (mem_filterRemoved hf r hr)
  · rw [if_neg hpn] at h
    cases h
    intro p hp'
    rcases mem_setKeyT hp' with hm | rfl
    · exact hp p hm
    · exact hq

/-- C10: no row returned by `standard_codelists`, `codelist_patches` or
`patched_codelists` contains a `Deprecated` key: the filter pops the column
from every surviving row, so every output row's column set excludes it even
when the source tables had that column. -/
theorem no_deprecated_column (parse : String → List Row)
    (files : List (String × List Row)) (exts : List ExtContrib)
    (hf : ∀ f ∈ files, ∀ r ∈ f.2, rowWF r)
    (he : ∀ e ∈ exts, ∀ file ∈ e.files, ∀ r ∈ parse file.2, rowWF r) :
    (∀ t lg, standardCodelists files = .ok (t, lg) →
      ∀ p ∈ t, ∀ r ∈ p.2, "Deprecated" ∉ r.map Prod.fst) ∧
    (∀ t lg, codelistPatches parse exts = .ok (t, lg) →
      ∀ p ∈ t, ∀ r ∈ p.2, "Deprecated" ∉ r.map Prod.fst) ∧
    (∀ t lg, patchedCodelists parse files exts = .ok (t, lg) →
      ∀ p ∈ t, ∀ r ∈ p.2, "Deprecated" ∉ r.map Prod.fst) := by
  have hstd : ∀ t lg, standardCodelists files = .ok (t, lg) → tableND t := by
    intro t lg h
    exact foldE_inv standardStep (fun s => tableND s.1) (fun f => ∀ r ∈ f.2, rowWF r)
      standardStep_nd files ([], []) (t, lg) hf (by intro p hp; simp at hp) h
  have hacc : ∀ res, accumulateCodelists parse exts = .ok res → tableND res.1 := by
    intro res h
    refine foldE_inv (accumExt parse) (fun s => tableND s.1)
      (fun e => ∀ file ∈ e.files, ∀ r ∈ parse file.2, rowWF r)
      ?_ exts ([], [], []) res he (by intro p hp; simp at hp) h
    intro s e hq hp s' hstep
    exact foldE_inv (accumOne parse e.extName) (fun s => tableND s.1)
      (fun file => ∀ r ∈ parse file.2, rowWF r)
      (accumOne_nd parse e.extName) e.files s s' hq hp hstep
  have hcp : ∀ t lg, codelistPatches parse exts = .ok (t, lg) → tableND t := by
    intro t lg h
    simp only [codelistPatches] at h
    cases ha : accumulateCodelists parse exts with
    | error e => rw [ha] at h; simp at h
    | ok res =>
      obtain ⟨codelists, originals, logs⟩ := res
      rw [ha] at h
      dsimp only at h
      cases hc : collapsePatches codelists with
      | error e => rw [hc] at h; simp at h
      | ok pr =>
        obtain ⟨t0, lgs⟩ := pr
        rw [hc] at h
        cases h
        exact collapseGo_nd _ _ _ (hacc _ ha) hc
  refine ⟨fun t lg h => fun p hp r hr =>
      not_mem_of_lookupField_none (hstd t lg h p hp r hr),
    fun t lg h => fun p hp r hr =>
      not_mem_of_lookupField_none (hcp t lg h p hp r hr), ?_⟩
  intro t lg h
  simp only [patchedCodelists] at h
  cases hs : standardCodelists files with
  | error e => rw [hs] at h; simp at h
  | ok pr1 =>
    obtain ⟨std, lg1⟩ := pr1
    rw [hs] at h
    dsimp only at h
    cases hc : codelistPatches parse exts with
    | error e => rw [hc] at h; simp at h
    | ok pr2 =>
      obtain ⟨patches, lg2⟩ := pr2
      rw [hc] at h
      dsimp only at h
      cases hap : applyPatches std patches with
      | error e => rw [hap] at h; simp at h
      | ok t0 =>
        rw [hap] at h
        dsimp only at h
        cases h
        have hnd : tableND t := by
          refine foldE_inv applyOne tableND (fun nr => rowsND nr.2)
            (fun s nr hq hp => applyOne_nd s nr hq hp) patches std t
            ?_ (hstd std lg1 hs) hap
          intro nr hnr
          exact hcp patches lg2 hc nr hnr
        exact fun p hp r hr => not_mem_of_lookupField_none (hnd p hp r hr)

/-- Witness for C10 at a concrete standard file with a `Deprecated` column. -/
theorem no_deprecated_column_witness :
    (∀ f ∈ [("awardCriteria.csv",
        [[("Code", "open"), ("Deprecated", "")],
         [("Code", "old"), ("Deprecated", "true")]])],
      ∀ r ∈ f.2, rowWF r) ∧
    (∀ e ∈ ([] : List ExtContrib), ∀ file ∈ e.files,
      ∀ r ∈ (fun (_ : String) => ([] : List Row)) file.2, rowWF r) ∧
    (∀ t lg, standardCodelists [("awardCriteria.csv",
        [[("Code", "open"), ("Deprecated", "")],
         [("Code", "old"), ("Deprecated", "true")]])] = .ok (t, lg) →
      ∀ p ∈ t, ∀ r ∈ p.2, "Deprecated" ∉ r.map Prod.fst) := by
  refine ⟨by decide, by simp, ?_⟩
  exact (no_deprecated_column (fun _ => []) _ [] (by decide) (by simp)).1

/-! ### C2: full-codelist consistency across two extensions -/

/-- C2: when two extensions (in registration order) both contribute a
non-patch codelist with the same filename, resolution succeeds exactly when
the second raw content equals the first; different contents abort with
"codelist X is different across extensions", and identical contents keep the
rows parsed from the first occurrence. -/
theorem full_codelist_consistency (parse : String → List Row)
    (n c1 c2 a b : String) (r1 r2 : List Row) (l1 l2 : List String)
    (hn : isPatchName n = false)
    (h1 : appendExtension n (parse c1) a = .ok (r1, l1))
    (h2 : appendExtension n (parse c2) b = .ok (r2, l2)) :
    (c1 = c2 →
      codelistPatches parse [⟨a, [(n, c1)]⟩, ⟨b, [(n, c2)]⟩] =
        .ok ([(n, r1)], l1 ++ l2)) ∧
    (c1 ≠ c2 →
      codelistPatches parse [⟨a, [(n, c1)]⟩, ⟨b, [(n, c2)]⟩] =
        .error ("codelist " ++ n ++ " is different across extensions")) := by
  have hacc1 : accumExt parse ([], [], []) ⟨a, [(n, c1)]⟩ =
      .ok ([(n, r1)], [(n, c1)], l1) := by
    simp only [accumExt, foldE, accumOne, h1, lookupKeyT, List.nil_append]
  have hcollapse : collapsePatches [(n, r1)] = .ok ([(n, r1)], []) := by
    simp only [collapsePatches, keysT, List.map_cons, List.map_nil, collapseGo, hn,
      Bool.false_and, Bool.false_eq_true, if_false]
  constructor
  · intro heq
    subst heq
    have hacc2 : accumExt parse ([(n, r1)], [(n, c1)], l1) ⟨b, [(n, c1)]⟩ =
        .ok ([(n, r1)], [(n, c1)], l1 ++ l2) := by
      simp only [accumExt, foldE, accumOne, h2, lookupKeyT, eq_self_iff_true,
        if_true, hn, Bool.false_eq_true, if_false]
    simp only [codelistPatches, accumulateCodelists, foldE, hacc1, hacc2, hcollapse,
      List.append_nil]
  · intro hne
    have hacc2 : accumExt parse ([(n, r1)], [(n, c1)], l1) ⟨b, [(n, c2)]⟩ =
        .error ("codelist " ++ n ++ " is different across extensions") := by
      simp only [accumExt, foldE, accumOne, h2, lookupKeyT, eq_self_iff_true,
        if_true, hn, Bool.false_eq_true, if_false, if_neg hne]
    simp only [codelistPatches, accumulateCodelists, foldE, hacc1, hacc2]

/-- Witness for C2 at concrete contents, exercising both the equal and the
differing case. -/
theorem full_codelist_consistency_witness :
    (isPatchName "x.csv" = false ∧
     appendExtension "x.csv"
        ((fun c => [[("Code", c)]]) "Code\nec") "Ext A" =
          .ok ([[("Code", "Code\nec"), ("Extension", "Ext A")]], []) ∧
     appendExtension "x.csv"
        ((fun c => [[("Code", c)]]) "Code\nother") "Ext B" =
          .ok ([[("Code", "Code\nother"), ("Extension", "Ext B")]], [])) ∧
    (("Code\nec" : String) ≠ "Code\nother" →
      codelistPatches (fun c => [[("Code", c)]])
        [⟨"Ext A", [("x.csv", "Code\nec")]⟩, ⟨"Ext B", [("x.csv", "Code\nother")]⟩] =
        .error ("codelist " ++ "x.csv" ++ " is different across extensions")) := by
  refine ⟨⟨by decide, by rfl, by rfl⟩, ?_⟩
  exact (full_codelist_consistency (fun c => [[("Code", c)]]) "x.csv"
    "Code\nec" "Code\nother" "Ext A" "Ext B"
    [[("Code", "Code\nec"), ("Extension", "Ext A")]]
    [[("Code", "Code\nother"), ("Extension", "Ext B")]] [] []
    (by decide) (by rfl) (by rfl)).2

/-! ### C5: per-filename accumulation of `+`/`-` patches -/

theorem dropFirst_ne_self {s : String} (h : isPatchName s = true) :
    dropFirst s ≠ s := by
  obtain ⟨d⟩ := s
  cases d with
  | nil => simp [isPatchName] at h
  | cons c t =>
    intro he
    have hdata : (dropFirst ⟨c :: t⟩).data = t := rfl
    rw [he] at hdata
    exact absurd (congrArg List.length hdata) (by simp)

theorem collapse_singleton_patch {pname : String} (rows : List Row)
    (hp : isPatchName pname = true) :
    collapsePatches [(pname, rows)] = .ok ([(pname, rows)], []) := by
  have hkey : hasKeyT [(pname, rows)] (dropFirst pname) = false := by
    simp only [hasKeyT, lookupKeyT, if_neg (fun e : pname = dropFirst pname =>
      dropFirst_ne_self hp e.symm)]
    rfl
  simp only [collapsePatches, keysT, List.map_cons, List.map_nil, collapseGo,
    hkey, Bool.and_false, Bool.false_eq_true, if_false]

theorem accum_patch_go (parse : String → List Row) (pname c0 : String)
    (hp : isPatchName pname = true) :
    ∀ {contribs : List (String × String)}
      {results : List (List Row × List String)},
      List.Forall₂ (fun (ec : String × String) (rl : List Row × List String) =>
        appendExtension pname (parse ec.2) ec.1 = .ok rl) contribs results →
      ∀ (acc : List Row) (logs : List String),
        foldE (accumExt parse) ([(pname, acc)], [(pname, c0)], logs)
            (contribs.map (fun ec => ⟨ec.1, [(pname, ec.2)]⟩)) =
          .ok ([(pname, acc ++ (results.map Prod.fst).flatten)], [(pname, c0)],
            logs ++ (results.map Prod.snd).flatten) := by
  intro contribs results hf
  induction hf with
  | nil => intro acc logs; simp [foldE]
  | cons h1 hrest ih =>
    rename_i ec rl contribs' results'
    obtain ⟨r1, l1⟩ := rl
    intro acc logs
    simp only [List.map_cons, foldE]
    have hstep : accumExt parse ([(pname, acc)], [(pname, c0)], logs)
        ⟨ec.1, [(pname, ec.2)]⟩ =
        .ok ([(pname, acc ++ r1)], [(pname, c0)], logs ++ l1) := by
      simp only [accumExt, foldE, accumOne, h1, lookupKeyT, eq_self_iff_true,
        if_true, hp, setKeyT]
    rw [hstep]
    dsimp only
    rw [ih (acc ++ r1) (logs ++ l1)]
    simp [List.append_assoc]

/-- C5: when several extensions each contribute a patch (`+`/`-`) with the
same filename, the rows accumulate by concatenation in extension registration
order — no contribution overwrites another — and `codelist_patches` returns
all of them under that filename. -/
theorem patch_accumulation (parse : String → List Row) (pname : String)
    (e1 : String × String) (contribs : List (String × String))
    (r1 : List Row × List String) (results : List (List Row × List String))
    (hp : isPatchName pname = true)
    (h1 : appendExtension pname (parse e1.2) e1.1 = .ok r1)
    (hrest : List.Forall₂ (fun (ec : String × String) (rl : List Row × List String) =>
      appendExtension pname (parse ec.2) ec.1 = .ok rl) contribs results) :
    codelistPatches parse
        ((e1 :: contribs).map (fun ec => ⟨ec.1, [(pname, ec.2)]⟩)) =
      .ok ([(pname, r1.1 ++ (results.map Prod.fst).flatten)],
        r1.2 ++ (results.map Prod.snd).flatten) := by
  obtain ⟨rows1, logs1⟩ := r1
  have hfirst : accumExt parse ([], [], []) ⟨e1.1, [(pname, e1.2)]⟩ =
      .ok ([(pname, rows1)], [(pname, e1.2)], logs1) := by
    simp only [accumExt, foldE, accumOne, h1, lookupKeyT, List.nil_append]
  have hfold := accum_patch_go parse pname e1.2 hp hrest rows1 logs1
  simp only [codelistPatches, accumulateCodelists, List.map_cons, foldE, hfirst,
    hfold, collapse_singleton_patch _ hp, List.append_nil]

/-- Witness for C5: two extensions both contributing `+partyRole.csv`. -/
theorem patch_accumulation_witness :
    (isPatchName "+partyRole.csv" = true ∧
     appendExtension "+partyRole.csv"
        ((fun c => [[("Code", c)]]) "pa") "Ext A" =
        .ok ([[("Code", "pa"), ("Extension", "Ext A")]], []) ∧
     List.Forall₂ (fun (ec : String × String) (rl : List Row × List String) =>
        appendExtension "+partyRole.csv" ((fun c => [[("Code", c)]]) ec.2) ec.1 =
          .ok rl)
       [("Ext B", "pb")] [([[("Code", "pb"), ("Extension", "Ext B")]], [])]) ∧
    codelistPatches (fun c => [[("Code", c)]])
        [⟨"Ext A", [("+partyRole.csv", "pa")]⟩, ⟨"Ext B", [("+partyRole.csv", "pb")]⟩] =
      .ok ([("+partyRole.csv",
        [[("Code", "pa"), ("Extension", "Ext A")],
         [("Code", "pb"), ("Extension", "Ext B")]])], []) := by
  have hf : List.Forall₂ (fun (ec : String × String) (rl : List Row × List String) =>
      appendExtension "+partyRole.csv" ((fun c => [[("Code", c)]]) ec.2) ec.1 =
        .ok rl)
      [("Ext B", "pb")] [([[("Code", "pb"), ("Extension", "Ext B")]], [])] :=
    List.Forall₂.cons (by rfl) List.Forall₂.nil
  refine ⟨⟨by decide, by rfl, hf⟩, ?_⟩
  exact patch_accumulation (fun c => [[("Code", c)]]) "+partyRole.csv"
    ("Ext A", "pa") [("Ext B", "pb")]
    ([[("Code", "pa"), ("Extension", "Ext A")]], [])
    [([[("Code", "pb"), ("Extension", "Ext B")]], [])]
    (by decide) (by rfl) hf

/-! ### C4: how `patched_codelists` applies each remaining contribution -/

/-- The `Code` cell of a row, defaulting to the empty string (used only to
phrase results about rows that do have a `Code` column). -/
def rowCodeD (r : Row) : String := (lookupField r "Code").getD ""

theorem rowCode_of_isSome {r : Row} (h : (lookupField r "Code").isSome = true) :
    rowCode r = .ok (rowCodeD r) := by
  obtain ⟨c, hc⟩ := Option.isSome_iff_exists.mp h
  simp [rowCode, rowCodeD, hc]

theorem codesOf_spec {rows : List Row}
    (h : ∀ r ∈ rows, (lookupField r "Code").isSome = true) :
    codesOf rows = .ok (rows.map rowCodeD) := by
  induction rows with
  | nil => rfl
  | cons r rest ih =>
    have hr := rowCode_of_isSome (h r (List.mem_cons_self _ _))
    have hrest := ih (fun x hx => h x (List.mem_cons_of_mem _ hx))
    simp [codesOf, hr, hrest]

theorem filterRemoved_spec (removed : List String) {cur : List Row}
    (h : ∀ r ∈ cur, (lookupField r "Code").isSome = true) :
    filterRemoved removed cur =
      .ok (cur.filter (fun r => !removed.contains (rowCodeD r))) := by
  induction cur with
  | nil => rfl
  | cons r rest ih =>
    have hr := rowCode_of_isSome (h r (List.mem_cons_self _ _))
    have hrest := ih (fun x hx => h x (List.mem_cons_of_mem _ hx))
    simp only [filterRemoved, hr, hrest, List.filter_cons]
    by_cases hm : rowCodeD r ∈ removed <;> simp [hm]

theorem contains_append_or (l1 l2 : List String) (a : String) :
    (l1 ++ l2).contains a = (l1.contains a || l2.contains a) := by
  induction l1 with
  | nil => simp
  | cons x xs ih => simp [List.contains_cons, ih, Bool.or_assoc]

theorem isPatchName_of_isAddName {s : String} (h : isAddName s = true) :
    isPatchName s = true := by
  obtain ⟨d⟩ := s
  cases d with
  | nil => simp [isAddName] at h
  | cons c t =>
    simp only [isAddName, decide_eq_true_eq] at h
    simp [isPatchName, h]

/-- C4: applying the remaining accumulated contributions to the standard set:
a full codelist replaces the base rows, `+name.csv` appends after the current
rows, `-name.csv` removes exactly the rows whose `Code` occurs among the
contributed rows' codes, and removals from several sources compound as the
union of the removed codes. -/
theorem patched_codelists_application (acc : Table (List Row)) (n : String)
    (rows : List Row) :
    (isPatchName n = false →
      applyOne acc (n, rows) = .ok (setKeyT acc n rows) ∧
      lookupKeyT (setKeyT acc n rows) n = some rows) ∧
    (∀ cur, isAddName n = true → lookupKeyT acc (dropFirst n) = some cur →
      applyOne acc (n, rows) = .ok (setKeyT acc (dropFirst n) (cur ++ rows)) ∧
      lookupKeyT (setKeyT acc (dropFirst n) (cur ++ rows)) (dropFirst n) =
        some (cur ++ rows)) ∧
    (∀ cur, isPatchName n = true → isAddName n = false →
      lookupKeyT acc (dropFirst n) = some cur →
      (∀ r ∈ rows, (lookupField r "Code").isSome = true) →
      (∀ r ∈ cur, (lookupField r "Code").isSome = true) →
      applyOne acc (n, rows) =
        .ok (setKeyT acc (dropFirst n)
          (cur.filter (fun r => !(rows.map rowCodeD).contains (rowCodeD r))))) ∧
    (∀ (rem1 rem2 : List String) (cur : List Row),
      cur.filter (fun r => !(rem1 ++ rem2).contains (rowCodeD r)) =
        cur.filter (fun r =>
          !rem1.contains (rowCodeD r) && !rem2.contains (rowCodeD r))) := by
  refine ⟨?_, ?_, ?_, ?_⟩
  · intro hn
    constructor
    · simp only [applyOne, hn, Bool.false_eq_true, if_false]
    · exact lookupKeyT_setKeyT_self acc n rows
  · intro cur hadd hl
    constructor
    · simp only [applyOne, isPatchName_of_isAddName hadd, if_true, hl, hadd]
    · exact lookupKeyT_setKeyT_self acc (dropFirst n) (cur ++ rows)
  · intro cur hp hadd hl hrows hcur
    simp only [applyOne, hp, if_true, hl, hadd, Bool.false_eq_true, if_false,
      codesOf_spec hrows, filterRemoved_spec (rows.map rowCodeD) hcur]
  · intro rem1 rem2 cur
    apply List.filter_congr
    intro r _
    simp [contains_append_or]

/-- Witness for C4 covering all three application modes at concrete tables. -/
theorem patched_codelists_application_witness :
    (isPatchName "a.csv" = false ∧
      applyOne [("a.csv", [[("Code", "x")]])] ("a.csv", [[("Code", "y")]]) =
        .ok (setKeyT [("a.csv", [[("Code", "x")]])] "a.csv" [[("Code", "y")]])) ∧
    (isAddName "+a.csv" = true ∧
      lookupKeyT [("a.csv", [[("Code", "x")]])] (dropFirst "+a.csv") =
        some [[("Code", "x")]] ∧
      applyOne [("a.csv", [[("Code", "x")]])] ("+a.csv", [[("Code", "y")]]) =
        .ok (setKeyT [("a.csv", [[("Code", "x")]])] "a.csv"
          ([[("Code", "x")]] ++ [[("Code", "y")]]))) ∧
    (isPatchName "-a.csv" = true ∧ isAddName "-a.csv" = false ∧
      applyOne [("a.csv", [[("Code", "x")], [("Code", "y")]])]
          ("-a.csv", [[("Code", "y")]]) =
        .ok (setKeyT [("a.csv", [[("Code", "x")], [("Code", "y")]])] "a.csv"
          ([[("Code", "x")], [("Code", "y")]].filter
            (fun r => !([[("Code", "y")]].map rowCodeD).contains (rowCodeD r))))) := by
  refine ⟨⟨by decide, ?_⟩, ⟨by decide, by rfl, ?_⟩, by decide, by decide, ?_⟩
  · exact ((patched_codelists_application
      [("a.csv", [[("Code", "x")]])] "a.csv" [[("Code", "y")]]).1 (by decide)).1
  · have h := ((patched_codelists_application
      [("a.csv", [[("Code", "x")]])] "+a.csv" [[("Code", "y")]]).2.1
      [[("Code", "x")]] (by decide) (by rfl)).1
    exact h
  · exact (patched_codelists_application
      [("a.csv", [[("Code", "x")], [("Code", "y")]])] "-a.csv"
      [[("Code", "y")]]).2.2.1 [[("Code", "x")], [("Code", "y")]]
      (by decide) (by decide) (by rfl) (by decide) (by decide)

/-! ### C6: codelists untouched by every extension are returned unchanged -/

theorem patch_name_decomp {p : String} (hp : isPatchName p = true) :
    p = "+" ++ dropFirst p ∨ p = "-" ++ dropFirst p := by
  obtain ⟨d⟩ := p
  cases d with
  | nil => simp [isPatchName] at hp
  | cons c t =>
    simp only [isPatchName, Bool.or_eq_true, decide_eq_true_eq] at hp
    rcases hp with rfl | rfl
    · left; rfl
    · right; rfl

theorem lookupKeyT_isSome_of_mem {α} {t : Table α} {k : String} {v : α}
    (h : (k, v) ∈ t) : (lookupKeyT t k).isSome = true := by
  induction t with
  | nil => simp at h
  | cons q rest ih =>
    obtain ⟨k0, v0⟩ := q
    by_cases hk : k0 = k
    · simp [lookupKeyT, if_pos hk]
    · rcases List.mem_cons.mp h with he | hm
      · exact absurd (congrArg Prod.fst he).symm hk
      · simp only [lookupKeyT, if_neg hk]
        exact ih hm

theorem applyOne_preserves {base base' : Table (List Row)} {p : String}
    {rows : List Row} (h : applyOne base (p, rows) = .ok base')
    {n : String} (h1 : p ≠ n) (h2 : p ≠ "+" ++ n) (h3 : p ≠ "-" ++ n) :
    lookupKeyT base' n = lookupKeyT base n := by
  simp only [applyOne] at h
  by_cases hp : isPatchName p
  · have hdf : dropFirst p ≠ n := by
      intro he
      rcases patch_name_decomp hp with hd | hd
      · exact h2 (by rw [hd, he])
      · exact h3 (by rw [hd, he])
    have hdf' : n ≠ dropFirst p := fun e => hdf e.symm
    rw [if_pos hp] at h
    cases hl : lookupKeyT base (dropFirst p) with
    | none => rw [hl] at h; simp at h
    | some cur =>
      rw [hl] at h
      dsimp only at h
      by_cases hadd : isAddName p
      · rw [if_pos hadd] at h
        cases h
        exact lookupKeyT_setKeyT_ne base _ hdf'
      · rw [if_neg hadd] at h
        cases hcs : codesOf rows with
        | error e => rw [hcs] at h; simp at h
        | ok removed =>
          rw [hcs] at h
          dsimp only at h
          cases hf : filterRemoved removed cur with
          | error e => rw [hf] at h; simp at h
          | ok newRows =>
            rw [hf] at h
            cases h
            exact lookupKeyT_setKeyT_ne base _ hdf'
  · rw [if_neg hp] at h
    cases h
    exact lookupKeyT_setKeyT_ne base _ (fun e => h1 e.symm)

theorem applyPatches_frame (n : String) :
    ∀ (patches : List (String × List Row)) (base out : Table (List Row)),
      (∀ q ∈ patches, q.1 ≠ n ∧ q.1 ≠ "+" ++ n ∧ q.1 ≠ "-" ++ n) →
      applyPatches base patches = .ok out →
      lookupKeyT out n = lookupKeyT base n := by
  intro patches
  induction patches with
  | nil =>
    intro base out _ h
    simp only [applyPatches, foldE] at h
    cases h
    rfl
  | cons q rest ih =>
    intro base out hq h
    obtain ⟨p, rows⟩ := q
    simp only [applyPatches, foldE] at h
    cases ha : applyOne base (p, rows) with
    | error e => rw [ha] at h; simp at h
    | ok base' =>
      rw [ha] at h
      have hkeys := hq (p, rows) (List.mem_cons_self _ _)
      have hstep := applyOne_preserves ha hkeys.1 hkeys.2.1 hkeys.2.2
      have htail := ih base' out (fun x hx => hq x (List.mem_cons_of_mem _ hx)) h
      rw [htail, hstep]

/-- C6: for every codelist name present in the standard for which no
accumulated extension contribution exists under the same name, `+name` or
`-name`, `patched_codelists` returns exactly the `standard_codelists` entry. -/
theorem untouched_codelist_frame (parse : String → List Row)
    (files : List (String × List Row)) (exts : List ExtContrib) (n : String)
    (std patches out : Table (List Row)) (lg1 lg2 lg : List String)
    (hstd : standardCodelists files = .ok (std, lg1))
    (hcp : codelistPatches parse exts = .ok (patches, lg2))
    (hout : patchedCodelists parse files exts = .ok (out, lg))
    (hmem : hasKeyT std n = true)
    (h1 : hasKeyT patches n = false)
    (h2 : hasKeyT patches ("+" ++ n) = false)
    (h3 : hasKeyT patches ("-" ++ n) = false) :
    lookupKeyT out n = lookupKeyT std n := by
  have hnk : ∀ q ∈ patches, q.1 ≠ n ∧ q.1 ≠ "+" ++ n ∧ q.1 ≠ "-" ++ n := by
    intro q hqm
    obtain ⟨k, v⟩ := q
    refine ⟨?_, ?_, ?_⟩ <;> intro he <;> subst he
    · rw [hasKeyT, lookupKeyT_isSome_of_mem hqm] at h1; exact absurd h1 (by simp)
    · rw [hasKeyT, lookupKeyT_isSome_of_mem hqm] at h2; exact absurd h2 (by simp)
    · rw [hasKeyT, lookupKeyT_isSome_of_mem hqm] at h3; exact absurd h3 (by simp)
  simp only [patchedCodelists, hstd, hcp] at hout
  cases hap : applyPatches std patches with
  | error e => rw [hap] at hout; simp at hout
  | ok t0 =>
    rw [hap] at hout
    dsimp only at hout
    cases hout
    exact applyPatches_frame n patches std out hnk hap

/-- Witness for C6: a standard codelist not named by any contribution. -/
theorem untouched_codelist_frame_witness :
    (standardCodelists [("a.csv", [[("Code", "x")]])] =
      .ok ([("a.csv", [[("Code", "x"), ("Extension", "OCDS Core")]])], []) ∧
     codelistPatches (fun c => [[("Code", c)]])
        [⟨"Ext A", [("b.csv", "bx")]⟩] =
      .ok ([("b.csv", [[("Code", "bx"), ("Extension", "Ext A")]])], []) ∧
     patchedCodelists (fun c => [[("Code", c)]])
        [("a.csv", [[("Code", "x")]])] [⟨"Ext A", [("b.csv", "bx")]⟩] =
      .ok ([("a.csv", [[("Code", "x"), ("Extension", "OCDS Core")]]),
            ("b.csv", [[("Code", "bx"), ("Extension", "Ext A")]])], [])) ∧
    lookupKeyT [("a.csv", [[("Code", "x"), ("Extension", "OCDS Core")]]),
        ("b.csv", [[("Code", "bx"), ("Extension", "Ext A")]])] "a.csv" =
      lookupKeyT [("a.csv", [[("Code", "x"), ("Extension", "OCDS Core")]])] "a.csv" := by
  refine ⟨⟨by rfl, by rfl, by rfl⟩, ?_⟩
  exact untouched_codelist_frame (fun c => [[("Code", c)]])
    [("a.csv", [[("Code", "x")]])] [⟨"Ext A", [("b.csv", "bx")]⟩] "a.csv"
    [("a.csv", [[("Code", "x"), ("Extension", "OCDS Core")]])]
    [("b.csv", [[("Code", "bx"), ("Extension", "Ext A")]])]
    [("a.csv", [[("Code", "x"), ("Extension", "OCDS Core")]]),
     ("b.csv", [[("Code", "bx"), ("Extension", "Ext A")]])]
    [] [] []
    (by rfl) (by rfl) (by rfl) (by rfl) (by rfl) (by rfl) (by rfl)

/-! ### C8: additive patch with mismatched columns aborts `process_codelist` -/

/-- C8: in `process_codelist` (`apply_extensions`, __init__.py), an additive
patch whose normalized fieldnames do not match the base codelist's fieldnames
(base columns = patch columns plus `Extension`) raises an error that names the
codelist and the extension, and no rewritten file is produced. -/
theorem additive_patch_field_mismatch (name : String) (baseFile patch : CsvFile)
    (extensionName : String)
    (hmis : pluckFieldnames baseFile.fieldnames name ≠
      pluckFieldnames patch.fieldnames name ++ ["Extension"]) :
    processCodelistAdd name (some baseFile) patch extensionName =
      .error ("Codelist " ++ name ++ " from " ++ extensionName ++
        " has different fields than the base codelist") := by
  simp only [processCodelistAdd, if_neg hmis]
  rfl

/-- Witness for C8: a patch carrying a `Description` column against a base
codelist that has none. -/
theorem additive_patch_field_mismatch_witness :
    (pluckFieldnames (CsvFile.mk ["Code", "Title", "Extension"] []).fieldnames
        "+roles.csv" ≠
      pluckFieldnames (CsvFile.mk ["Code", "Description"] []).fieldnames
        "+roles.csv" ++ ["Extension"]) ∧
    processCodelistAdd "+roles.csv"
        (some (CsvFile.mk ["Code", "Title", "Extension"] []))
        (CsvFile.mk ["Code", "Description"] []) "Tariffs Extension" =
      .error ("Codelist " ++ "+roles.csv" ++ " from " ++ "Tariffs Extension" ++
        " has different fields than the base codelist") :=
  ⟨by decide, additive_patch_field_mismatch "+roles.csv"
    (CsvFile.mk ["Code", "Title", "Extension"] [])
    (CsvFile.mk ["Code", "Description"] []) "Tariffs Extension" (by decide)⟩

/-! ### C1: collapsing of redundant patches against full replacements -/

theorem contains_iff_mem (l : List String) (a : String) :
    l.contains a = true ↔ a ∈ l := by
  simp [List.contains, List.elem_iff]

def rowCodesOf (rows : List Row) : List String := rows.map rowCodeD

/-- Every row of every table entry has a `Code` cell (CSV wellformedness the
collapsing loop relies on via `row['Code']`). -/
def allRowsHaveCode (t : Table (List Row)) : Prop :=
  ∀ p ∈ t, ∀ r ∈ p.2, (lookupField r "Code").isSome = true

instance (t : Table (List Row)) : Decidable (allRowsHaveCode t) := by
  unfold allRowsHaveCode; infer_instance

/-- The target of a patch entry is itself a plain codelist name (real names
never stack `+`/`-` signs). -/
def targetsNotPatches (t : Table (List Row)) : Prop :=
  ∀ p ∈ t, isPatchName p.1 = true → isPatchName (dropFirst p.1) = false

instance (t : Table (List Row)) : Decidable (targetsNotPatches t) := by
  unfold targetsNotPatches; infer_instance

/-- The guard of the collapsing loop: a patch whose target is accumulated. -/
def collapseCond (t : Table (List Row)) (name : String) : Bool :=
  isPatchName name && hasKeyT t (dropFirst name)

/-- All collapsing checks pass: every `+` patch's codes occur in its target's
codes, every `-` patch's codes are absent from its target's codes. -/
def collapseOKb (t : Table (List Row)) : Bool :=
  (keysT t).all (fun name =>
    if isPatchName name then
      match lookupKeyT t name, lookupKeyT t (dropFirst name) with
      | some patRows, some baseRows =>
        if isAddName name then
          (rowCodesOf patRows).all (fun c => (rowCodesOf baseRows).contains c)
        else
          (rowCodesOf patRows).all (fun c => !(rowCodesOf baseRows).contains c)
      | _, _ => true
    else true)

/-- A collapsing violation: code `c` of patch `name` breaks the consistency
expectation against the accumulated full codelist `name[1:]`. -/
def collapseViol (t : Table (List Row)) (name c : String) : Prop :=
  isPatchName name = true ∧
  ∃ patRows baseRows,
    lookupKeyT t name = some patRows ∧
    lookupKeyT t (dropFirst name) = some baseRows ∧
    c ∈ rowCodesOf patRows ∧
    (isAddName name = true → c ∉ rowCodesOf baseRows) ∧
    (isAddName name = false → c ∈ rowCodesOf baseRows)

/-- The message of the failing `assert`, naming the code and both filenames. -/
def violMsg (name c : String) : String :=
  if isAddName name then collapseMsgAdd c name (dropFirst name)
  else collapseMsgRem c name (dropFirst name)

/-- The informational line logged when a redundant patch is dropped. -/
def ignoreMsg (name : String) : String :=
  if isAddName name then ignoreMsgAdd name (dropFirst name)
  else ignoreMsgRem name (dropFirst name)

/-- The log lines of a full collapsing pass over the snapshot keys. -/
def collapseLogsFor (t : Table (List Row)) (names : List String) : List String :=
  names.filterMap (fun n => if collapseCond t n then some (ignoreMsg n) else none)

theorem keys_delKeyT_sublist {α} (t : Table α) (k : String) :
    (keysT (delKeyT t k)).Sublist (keysT t) := by
  induction t with
  | nil => simp [delKeyT, keysT]
  | cons q rest ih =>
    obtain ⟨k0, v0⟩ := q
    by_cases hk : k0 = k
    · simp only [delKeyT, if_pos hk, keysT, List.map_cons]
      exact List.sublist_cons_self _ _
    · simp only [delKeyT, if_neg hk, keysT, List.map_cons]
      exact ih.cons₂ k0

theorem tableWF_delKeyT {α} {t : Table α} (k : String) (h : tableWF t) :
    tableWF (delKeyT t k) :=
  List.Nodup.sublist (keys_delKeyT_sublist t k) h

theorem lookupKeyT_eq_none_of_not_mem {α} {t : Table α} {k : String}
    (h : k ∉ keysT t) : lookupKeyT t k = none := by
  induction t with
  | nil => rfl
  | cons q rest ih =>
    obtain ⟨k0, v0⟩ := q
    simp only [keysT, List.map_cons, List.mem_cons, not_or] at h
    simp only [lookupKeyT, if_neg (fun e : k0 = k => h.1 e.symm)]
    exact ih h.2

theorem lookupKeyT_delKeyT_self {α} {t : Table α} {k : String} (h : tableWF t) :
    lookupKeyT (delKeyT t k) k = none := by
  induction t with
  | nil => rfl
  | cons q rest ih =>
    obtain ⟨k0, v0⟩ := q
    simp only [tableWF, keysT, List.map_cons, List.nodup_cons] at h
    by_cases hk : k0 = k
    · subst hk
      simp only [delKeyT, eq_self_iff_true, if_true]
      exact lookupKeyT_eq_none_of_not_mem h.1
    · simp only [delKeyT, if_neg hk, lookupKeyT, if_neg hk]
      exact ih h.2

theorem isSome_lookup_of_mem_keys {α} {t : Table α} {n : String}
    (h : n ∈ keysT t) : (lookupKeyT t n).isSome = true := by
  induction t with
  | nil => simp [keysT] at h
  | cons q rest ih =>
    obtain ⟨k0, v0⟩ := q
    by_cases hk : k0 = n
    · simp [lookupKeyT, if_pos hk]
    · simp only [keysT, List.map_cons, List.mem_cons] at h
      rcases h with rfl | hm
      · exact absurd rfl hk
      · simp only [lookupKeyT, if_neg hk]
        exact ih hm

theorem mem_keys_of_isSome {α} {t : Table α} {n : String}
    (h : (lookupKeyT t n).isSome = true) : n ∈ keysT t := by
  obtain ⟨v, hv⟩ := Option.isSome_iff_exists.mp h
  have := lookupKeyT_mem hv
  exact List.mem_map.mpr ⟨(n, v), this, rfl⟩

theorem delKeyT_eq_filter {t : Table (List Row)} (k : String) (h : tableWF t) :
    delKeyT t k = t.filter (fun p => p.1 != k) := by
  induction t with
  | nil => rfl
  | cons q rest ih =>
    obtain ⟨k0, v0⟩ := q
    simp only [tableWF, keysT, List.map_cons, List.nodup_cons] at h
    by_cases hk : k0 = k
    · subst hk
      simp only [delKeyT, eq_self_iff_true, if_true, List.filter_cons,
        bne_self_eq_false, Bool.false_eq_true, if_false]
      symm
      apply List.filter_eq_self.mpr
      intro p hp
      simp only [bne_iff_ne, ne_eq]
      intro he
      exact h.1 (List.mem_map.mpr ⟨p, hp, he⟩)
    · simp only [delKeyT, if_neg hk, List.filter_cons,
        show ((k0, v0).1 != k) = true from bne_iff_ne.mpr hk, if_true]
      rw [ih h.2]

theorem rowCodesOf_cons (r : Row) (rest : List Row) :
    rowCodesOf (r :: rest) = rowCodeD r :: rowCodesOf rest := rfl

theorem checkAdded_pass (codes : List String) (name base : String) :
    ∀ {patRows : List Row},
      (∀ r ∈ patRows, (lookupField r "Code").isSome = true) →
      (∀ c ∈ rowCodesOf patRows, c ∈ codes) →
      checkAdded codes name base patRows = .ok () := by
  intro patRows
  induction patRows with
  | nil => intro _ _; rfl
  | cons r rest ih =>
    intro hc hmem
    have hr := rowCode_of_isSome (hc r (List.mem_cons_self _ _))
    have hcont : codes.contains (rowCodeD r) = true :=
      (contains_iff_mem _ _).mpr
        (hmem _ (rowCodesOf_cons r rest ▸ List.mem_cons_self _ _))
    simp only [checkAdded, hr, hcont, if_true]
    exact ih (fun x hx => hc x (List.mem_cons_of_mem _ hx))
      (fun c hcm => hmem c (rowCodesOf_cons r rest ▸ List.mem_cons_of_mem _ hcm))

theorem checkAdded_fail (codes : List String) (name base : String) :
    ∀ {patRows : List Row},
      (∀ r ∈ patRows, (lookupField r "Code").isSome = true) →
      (∃ c ∈ rowCodesOf patRows, c ∉ codes) →
      ∃ c, c ∈ rowCodesOf patRows ∧ c ∉ codes ∧
        checkAdded codes name base patRows = .error (collapseMsgAdd c name base) := by
  intro patRows
  induction patRows with
  | nil =>
    intro _ hex
    simp [rowCodesOf] at hex
  | cons r rest ih =>
    intro hc hex
    have hr := rowCode_of_isSome (hc r (List.mem_cons_self _ _))
    by_cases hm : rowCodeD r ∈ codes
    · have hcont : codes.contains (rowCodeD r) = true := (contains_iff_mem _ _).mpr hm
      obtain ⟨c, hcm, hcn⟩ := hex
      rcases List.mem_cons.mp (rowCodesOf_cons r rest ▸ hcm :
          c ∈ rowCodeD r :: rowCodesOf rest) with rfl | hcm'
      · exact absurd hm hcn
      · obtain ⟨c', hc1, hc2, hc3⟩ := ih (fun x hx => hc x (List.mem_cons_of_mem _ hx))
          ⟨c, hcm', hcn⟩
        refine ⟨c', rowCodesOf_cons r rest ▸ List.mem_cons_of_mem _ hc1, hc2, ?_⟩
        simp only [checkAdded, hr, hcont, if_true]
        exact hc3
    · have hcont : codes.contains (rowCodeD r) = false := by
        rw [Bool.eq_false_iff]
        intro hco
        exact hm ((contains_iff_mem _ _).mp hco)
      refine ⟨rowCodeD r, rowCodesOf_cons r rest ▸ List.mem_cons_self _ _, hm, ?_⟩
      simp only [checkAdded, hr, hcont, Bool.false_eq_true, if_false]

theorem checkRemoved_pass (codes : List String) (name base : String) :
    ∀ {patRows : List Row},
      (∀ r ∈ patRows, (lookupField r "Code").isSome = true) →
      (∀ c ∈ rowCodesOf patRows, c ∉ codes) →
      checkRemoved codes name base patRows = .ok () := by
  intro patRows
  induction patRows with
  | nil => intro _ _; rfl
  | cons r rest ih =>
    intro hc hmem
    have hr := rowCode_of_isSome (hc r (List.mem_cons_self _ _))
    have hcont : codes.contains (rowCodeD r) = false := by
      rw [Bool.eq_false_iff]
      intro hco
      exact hmem _ (rowCodesOf_cons r rest ▸ List.mem_cons_self _ _)
        ((contains_iff_mem _ _).mp hco)
    simp only [checkRemoved, hr, hcont, Bool.false_eq_true, if_false]
    exact ih (fun x hx => hc x (List.mem_cons_of_mem _ hx))
      (fun c hcm => hmem c (rowCodesOf_cons r rest ▸ List.mem_cons_of_mem _ hcm))

theorem checkRemoved_fail (codes : List String) (name base : String) :
    ∀ {patRows : List Row},
      (∀ r ∈ patRows, (lookupField r "Code").isSome = true) →
      (∃ c ∈ rowCodesOf patRows, c ∈ codes) →
      ∃ c, c ∈ rowCodesOf patRows ∧ c ∈ codes ∧
        checkRemoved codes name base patRows = .error (collapseMsgRem c name base) := by
  intro patRows
  induction patRows with
  | nil =>
    intro _ hex
    simp [rowCodesOf] at hex
  | cons r rest ih =>
    intro hc hex
    have hr := rowCode_of_isSome (hc r (List.mem_cons_self _ _))
    by_cases hm : rowCodeD r ∈ codes
    · have hcont : codes.contains (rowCodeD r) = true := (contains_iff_mem _ _).mpr hm
      refine ⟨rowCodeD r, rowCodesOf_cons r rest ▸ List.mem_cons_self _ _, hm, ?_⟩
      simp only [checkRemoved, hr, hcont, if_true]
    · have hcont : codes.contains (rowCodeD r) = false := by
        rw [Bool.eq_false_iff]
        intro hco
        exact hm ((contains_iff_mem _ _).mp hco)
      obtain ⟨c, hcm, hcn⟩ := hex
      rcases List.mem_cons.mp (rowCodesOf_cons r rest ▸ hcm :
          c ∈ rowCodeD r :: rowCodesOf rest) with rfl | hcm'
      · exact absurd hcn hm
      · obtain ⟨c', hc1, hc2, hc3⟩ := ih (fun x hx => hc x (List.mem_cons_of_mem _ hx))
          ⟨c, hcm', hcn⟩
        refine ⟨c', rowCodesOf_cons r rest ▸ List.mem_cons_of_mem _ hc1, hc2, ?_⟩
        simp only [checkRemoved, hr, hcont, Bool.false_eq_true, if_false]
        exact hc3

theorem collapseOKb_spec {t : Table (List Row)} (h : collapseOKb t = true)
    {name : String} {patRows baseRows : List Row}
    (hp : isPatchName name = true)
    (h1 : lookupKeyT t name = some patRows)
    (h2 : lookupKeyT t (dropFirst name) = some baseRows) :
    (isAddName name = true → ∀ c ∈ rowCodesOf patRows, c ∈ rowCodesOf baseRows) ∧
    (isAddName name = false → ∀ c ∈ rowCodesOf patRows, c ∉ rowCodesOf baseRows) := by
  have hn : name ∈ keysT t := mem_keys_of_isSome (by simp [h1])
  simp only [collapseOKb, List.all_eq_true] at h
  have hcond := h name hn
  rw [if_pos hp, h1, h2] at hcond
  dsimp only at hcond
  constructor
  · intro hadd c hcm
    rw [if_pos hadd] at hcond
    exact (contains_iff_mem _ _).mp (List.all_eq_true.mp hcond c hcm)
  · intro hadd c hcm hinbase
    rw [if_neg (by simp [hadd])] at hcond
    have hx := List.all_eq_true.mp hcond c hcm
    rw [(contains_iff_mem _ _).mpr hinbase] at hx
    simp at hx

theorem collapseOKb_false {t : Table (List Row)} (h : collapseOKb t = false) :
    ∃ name c, collapseViol t name c := by
  simp only [collapseOKb] at h
  obtain ⟨name, hn, hfail⟩ := List.all_eq_false.mp h
  by_cases hp : isPatchName name
  · rw [if_pos hp] at hfail
    cases h1 : lookupKeyT t name with
    | none => rw [h1] at hfail; simp at hfail
    | some patRows =>
      cases h2 : lookupKeyT t (dropFirst name) with
      | none => rw [h1, h2] at hfail; simp at hfail
      | some baseRows =>
        rw [h1, h2] at hfail
        dsimp only at hfail
        by_cases hadd : isAddName name
        · rw [if_pos hadd] at hfail
          rw [Bool.not_eq_true] at hfail
          obtain ⟨c, hcm, hcf⟩ := List.all_eq_false.mp hfail
          refine ⟨name, c, hp, patRows, baseRows, h1, h2, hcm, ?_, ?_⟩
          · intro _ hmem
            exact hcf ((contains_iff_mem _ _).mpr hmem)
          · intro hadd'
            rw [hadd] at hadd'
            exact absurd hadd' (by simp)
        · rw [if_neg hadd] at hfail
          rw [Bool.not_eq_true] at hfail
          obtain ⟨c, hcm, hcf⟩ := List.all_eq_false.mp hfail
          rw [Bool.not_eq_true, Bool.not_eq_false'] at hcf
          refine ⟨name, c, hp, patRows, baseRows, h1, h2, hcm, ?_, ?_⟩
          · intro hadd'
            exact absurd hadd' hadd
          · intro _
            exact (contains_iff_mem _ _).mp hcf
  · rw [if_neg hp] at hfail
    simp at hfail


theorem collapseCond_delKeyT {acc : Table (List Row)} {name n : String}
    (htgt : targetsNotPatches acc) (hp : isPatchName name = true)
    (hsome : (lookupKeyT acc n).isSome = true) :
    collapseCond (delKeyT acc name) n = collapseCond acc n := by
  by_cases hpn : isPatchName n
  · obtain ⟨v, hv⟩ := Option.isSome_iff_exists.mp hsome
    have hnp := htgt (n, v) (lookupKeyT_mem hv) hpn
    have hdne : dropFirst n ≠ name := by
      intro e
      rw [e, hp] at hnp
      exact absurd hnp (by simp)
    simp only [collapseCond, hasKeyT, lookupKeyT_delKeyT_ne acc hdne]
  · simp [collapseCond, hpn]

theorem collapseLogsFor_delKeyT {acc : Table (List Row)} {name : String}
    (htgt : targetsNotPatches acc) (hp : isPatchName name = true)
    {rest : List String}
    (hkeys : ∀ n ∈ rest, (lookupKeyT acc n).isSome = true) :
    collapseLogsFor (delKeyT acc name) rest = collapseLogsFor acc rest := by
  apply List.filterMap_congr
  intro n hn
  rw [collapseCond_delKeyT htgt hp (hkeys n hn)]

theorem collapseOKb_delKeyT {t : Table (List Row)} {name : String}
    (htw : tableWF t) (htgt : targetsNotPatches t)
    (hp : isPatchName name = true) (h : collapseOKb t = true) :
    collapseOKb (delKeyT t name) = true := by
  simp only [collapseOKb, List.all_eq_true] at h ⊢
  intro n hn
  have hnt : n ∈ keysT t := (keys_delKeyT_sublist t name).subset hn
  have hne : n ≠ name := by
    intro he
    subst he
    have hx := isSome_lookup_of_mem_keys hn
    rw [lookupKeyT_delKeyT_self htw] at hx
    simp at hx
  by_cases hpn : isPatchName n
  · obtain ⟨v, hv⟩ := Option.isSome_iff_exists.mp (isSome_lookup_of_mem_keys hnt)
    have hnp : isPatchName (dropFirst n) = false := htgt (n, v) (lookupKeyT_mem hv) hpn
    have hdne : dropFirst n ≠ name := by
      intro e
      rw [e, hp] at hnp
      exact absurd hnp (by simp)
    rw [if_pos hpn, lookupKeyT_delKeyT_ne t hne, lookupKeyT_delKeyT_ne t hdne]
    have hx := h n hnt
    rw [if_pos hpn] at hx
    exact hx
  · rw [if_neg hpn]


theorem collapseGo_ok :
    ∀ (names : List String) (acc : Table (List Row)),
      tableWF acc →
      names.Nodup →
      (∀ n ∈ names, (lookupKeyT acc n).isSome = true) →
      allRowsHaveCode acc →
      targetsNotPatches acc →
      collapseOKb acc = true →
      collapseGo names acc =
        .ok (acc.filter (fun p => !(decide (p.1 ∈ names) && collapseCond acc p.1)),
          collapseLogsFor acc names) := by
  intro names
  induction names with
  | nil =>
    intro acc _ _ _ _ _ _
    have hfix : acc.filter
        (fun p => !(decide (p.1 ∈ ([] : List String)) && collapseCond acc p.1)) = acc :=
      List.filter_eq_self.mpr (fun a _ => by simp)
    simp [collapseGo, collapseLogsFor, hfix]
  | cons name rest ih =>
    intro acc htw hnd hkeys hcode htgt hok
    obtain ⟨hnmem, hndrest⟩ := List.nodup_cons.mp hnd
    by_cases hcc : collapseCond acc name = true
    · have hccg : (isPatchName name && hasKeyT acc (dropFirst name)) = true := hcc
      have hccg2 := hccg
      rw [Bool.and_eq_true] at hccg2
      obtain ⟨hpatch, hhas⟩ := hccg2
      have hhas' : (lookupKeyT acc (dropFirst name)).isSome = true := hhas
      obtain ⟨baseRows, hbase⟩ := Option.isSome_iff_exists.mp hhas'
      obtain ⟨patRows, hpat⟩ :=
        Option.isSome_iff_exists.mp (hkeys name (List.mem_cons_self _ _))
      have hbaseRowsCode : ∀ r ∈ baseRows, (lookupField r "Code").isSome = true :=
        hcode _ (lookupKeyT_mem hbase)
      have hpatRowsCode : ∀ r ∈ patRows, (lookupField r "Code").isSome = true :=
        hcode _ (lookupKeyT_mem hpat)
      have hcodes : codesOf baseRows = .ok (rowCodesOf baseRows) :=
        codesOf_spec hbaseRowsCode
      have hspec := collapseOKb_spec hok hpatch hpat hbase
      have hihx := ih (delKeyT acc name) (tableWF_delKeyT name htw) hndrest
        (fun n hn => by
          rw [lookupKeyT_delKeyT_ne acc (fun e : n = name => hnmem (e ▸ hn))]
          exact hkeys n (List.mem_cons_of_mem _ hn))
        (fun p hp => hcode p (mem_delKeyT hp))
        (fun p hp hq => htgt p (mem_delKeyT hp) hq)
        (collapseOKb_delKeyT htw htgt hpatch hok)
      have htable : (delKeyT acc name).filter
            (fun p => !(decide (p.1 ∈ rest) && collapseCond (delKeyT acc name) p.1)) =
          acc.filter (fun p => !(decide (p.1 ∈ name :: rest) && collapseCond acc p.1)) := by
        have hstep1 : (delKeyT acc name).filter
              (fun p => !(decide (p.1 ∈ rest) && collapseCond (delKeyT acc name) p.1)) =
            (delKeyT acc name).filter
              (fun p => !(decide (p.1 ∈ rest) && collapseCond acc p.1)) := by
          apply List.filter_congr
          intro p hp
          rw [collapseCond_delKeyT htgt hpatch
            (lookupKeyT_isSome_of_mem (mem_delKeyT hp))]
        rw [hstep1, delKeyT_eq_filter name htw, List.filter_filter]
        apply List.filter_congr
        intro p hp
        by_cases hpe : p.1 = name
        · rw [hpe]
          simp [hcc]
        · have hmm : decide (p.1 ∈ name :: rest) = decide (p.1 ∈ rest) := by
            simp [List.mem_cons, hpe]
          rw [hmm]
          have hbne : (p.1 != name) = true := bne_iff_ne.mpr hpe
          rw [hbne]
          simp
      have hlogs : collapseLogsFor (delKeyT acc name) rest = collapseLogsFor acc rest :=
        collapseLogsFor_delKeyT htgt hpatch
          (fun n hn => hkeys n (List.mem_cons_of_mem _ hn))
      have hlogcons : collapseLogsFor acc (name :: rest) =
          ignoreMsg name :: collapseLogsFor acc rest := by
        simp only [collapseLogsFor, List.filterMap_cons, hcc, if_true]
      by_cases hadd : isAddName name
      · have hchk := checkAdded_pass (rowCodesOf baseRows) name (dropFirst name)
          hpatRowsCode (hspec.1 hadd)
        simp only [collapseGo, hccg, if_true, hbase, hpat]
        rw [hcodes]
        dsimp only
        rw [if_pos hadd, hchk]
        dsimp only
        rw [hihx]
        dsimp only
        rw [htable, hlogs, hlogcons]
        simp only [ignoreMsg, if_pos hadd]
      · have hchk := checkRemoved_pass (rowCodesOf baseRows) name (dropFirst name)
          hpatRowsCode (hspec.2 (Bool.eq_false_iff.mpr hadd))
        simp only [collapseGo, hccg, if_true, hbase, hpat]
        rw [hcodes]
        dsimp only
        rw [if_neg hadd, hchk]
        dsimp only
        rw [hihx]
        dsimp only
        rw [htable, hlogs, hlogcons]
        simp only [ignoreMsg, if_neg hadd]
    · have hccf : collapseCond acc name = false := Bool.eq_false_iff.mpr hcc
      have hccg : ¬((isPatchName name && hasKeyT acc (dropFirst name)) = true) := hcc
      have hgo : collapseGo (name :: rest) acc = collapseGo rest acc := by
        simp only [collapseGo, if_neg hccg]
      rw [hgo, ih acc htw hndrest (fun n hn => hkeys n (List.mem_cons_of_mem _ hn))
        hcode htgt hok]
      have htable : acc.filter (fun p => !(decide (p.1 ∈ rest) && collapseCond acc p.1)) =
          acc.filter (fun p => !(decide (p.1 ∈ name :: rest) && collapseCond acc p.1)) := by
        apply List.filter_congr
        intro p hp
        by_cases hpe : p.1 = name
        · rw [hpe, hccf]
          simp
        · have hmm : decide (p.1 ∈ name :: rest) = decide (p.1 ∈ rest) := by
            simp [List.mem_cons, hpe]
          rw [hmm]
      have hlogcons : collapseLogsFor acc (name :: rest) = collapseLogsFor acc rest := by
        simp only [collapseLogsFor, List.filterMap_cons, hccf, Bool.false_eq_true, if_false]
      rw [htable, hlogcons]


theorem collapseGo_err :
    ∀ (names : List String) (acc : Table (List Row)),
      tableWF acc →
      names.Nodup →
      (∀ n ∈ names, (lookupKeyT acc n).isSome = true) →
      allRowsHaveCode acc →
      targetsNotPatches acc →
      (∃ name c, name ∈ names ∧ collapseViol acc name c) →
      ∃ name c, collapseViol acc name c ∧
        collapseGo names acc = .error (violMsg name c) := by
  intro names
  induction names with
  | nil =>
    intro acc _ _ _ _ _ hex
    obtain ⟨n, c, hn, _⟩ := hex
    simp at hn
  | cons name rest ih =>
    intro acc htw hnd hkeys hcode htgt hex
    obtain ⟨hnmem, hndrest⟩ := List.nodup_cons.mp hnd
    by_cases hcc : (isPatchName name && hasKeyT acc (dropFirst name)) = true
    · have hccg2 := hcc
      rw [Bool.and_eq_true] at hccg2
      obtain ⟨hpatch, hhas⟩ := hccg2
      have hhas' : (lookupKeyT acc (dropFirst name)).isSome = true := hhas
      obtain ⟨baseRows, hbase⟩ := Option.isSome_iff_exists.mp hhas'
      obtain ⟨patRows, hpat⟩ :=
        Option.isSome_iff_exists.mp (hkeys name (List.mem_cons_self _ _))
      have hbrc : ∀ r ∈ baseRows, (lookupField r "Code").isSome = true :=
        hcode _ (lookupKeyT_mem hbase)
      have hprc : ∀ r ∈ patRows, (lookupField r "Code").isSome = true :=
        hcode _ (lookupKeyT_mem hpat)
      have hcodes : codesOf baseRows = .ok (rowCodesOf baseRows) :=
        codesOf_spec hbrc
      by_cases hheadviol : ∃ c, collapseViol acc name c
      · obtain ⟨c, hviol⟩ := hheadviol
        obtain ⟨_, patRows2, baseRows2, hpat2, hbase2, hcm, hv1, hv2⟩ := hviol
        rw [hpat] at hpat2
        injection hpat2 with he1
        rw [hbase] at hbase2
        injection hbase2 with he2
        subst he1
        subst he2
        by_cases hadd : isAddName name
        · have hexc : ∃ c ∈ rowCodesOf patRows, c ∉ rowCodesOf baseRows :=
            ⟨c, hcm, hv1 hadd⟩
          obtain ⟨c2, hc1, hc2, hc3⟩ :=
            checkAdded_fail (rowCodesOf baseRows) name (dropFirst name) hprc hexc
          refine ⟨name, c2, ⟨hpatch, patRows, baseRows, hpat, hbase, hc1,
            fun _ => hc2, fun hneg => by rw [hadd] at hneg; exact absurd hneg (by simp)⟩, ?_⟩
          simp only [collapseGo, hcc, if_true, hbase, hpat]
          rw [hcodes]
          dsimp only
          rw [if_pos hadd, hc3]
          simp [violMsg, hadd]
        · have hexc : ∃ c ∈ rowCodesOf patRows, c ∈ rowCodesOf baseRows :=
            ⟨c, hcm, hv2 (Bool.eq_false_iff.mpr hadd)⟩
          obtain ⟨c2, hc1, hc2, hc3⟩ :=
            checkRemoved_fail (rowCodesOf baseRows) name (dropFirst name) hprc hexc
          refine ⟨name, c2, ⟨hpatch, patRows, baseRows, hpat, hbase, hc1,
            fun hpos => by rw [hpos] at hadd; exact absurd hadd (by simp), fun _ => hc2⟩, ?_⟩
          simp only [collapseGo, hcc, if_true, hbase, hpat]
          rw [hcodes]
          dsimp only
          rw [if_neg hadd, hc3]
          simp [violMsg, hadd]
      · obtain ⟨vn, vc, hvmem, hviol⟩ := hex
        have hvne : vn ≠ name := by
          intro he
          subst he
          exact hheadviol ⟨vc, hviol⟩
        have hvrest : vn ∈ rest := by
          rcases List.mem_cons.mp hvmem with he | hm
          · exact absurd he hvne
          · exact hm
        have hchkok : (isAddName name = true →
              ∀ c ∈ rowCodesOf patRows, c ∈ rowCodesOf baseRows) ∧
            (isAddName name = false →
              ∀ c ∈ rowCodesOf patRows, c ∉ rowCodesOf baseRows) := by
          constructor
          · intro hadd c hcm
            by_contra hnb
            exact hheadviol ⟨c, hpatch, patRows, baseRows, hpat, hbase, hcm,
              fun _ => hnb, fun hneg => by rw [hadd] at hneg; exact absurd hneg (by simp)⟩
          · intro hadd c hcm hinb
            exact hheadviol ⟨c, hpatch, patRows, baseRows, hpat, hbase, hcm,
              fun hpos => by rw [hpos] at hadd; exact absurd hadd (by simp), fun _ => hinb⟩
        obtain ⟨hvp, vpat, vbase, hvpat, hvbase, hvcm, hv1, hv2⟩ := hviol
        have hvtgt : isPatchName (dropFirst vn) = false :=
          htgt (vn, vpat) (lookupKeyT_mem hvpat) hvp
        have hvtne : dropFirst vn ≠ name := by
          intro e
          rw [e, hpatch] at hvtgt
          exact absurd hvtgt (by simp)
        have hviol2 : collapseViol (delKeyT acc name) vn vc :=
          ⟨hvp, vpat, vbase,
            by rw [lookupKeyT_delKeyT_ne acc hvne]; exact hvpat,
            by rw [lookupKeyT_delKeyT_ne acc hvtne]; exact hvbase, hvcm, hv1, hv2⟩
        obtain ⟨n2, c2, hviol3, herr⟩ := ih (delKeyT acc name)
          (tableWF_delKeyT name htw) hndrest
          (fun n hn => by
            rw [lookupKeyT_delKeyT_ne acc (fun e : n = name => hnmem (e ▸ hn))]
            exact hkeys n (List.mem_cons_of_mem _ hn))
          (fun p hp => hcode p (mem_delKeyT hp))
          (fun p hp hq => htgt p (mem_delKeyT hp) hq)
          ⟨vn, vc, hvrest, hviol2⟩
        obtain ⟨hp2, pat2, base2, hpat3, hbase3, hcm2, h12, h22⟩ := hviol3
        have hn2ne : n2 ≠ name := by
          intro he
          subst he
          rw [lookupKeyT_delKeyT_self htw] at hpat3
          exact absurd hpat3 (by simp)
        have htg2 : isPatchName (dropFirst n2) = false :=
          htgt (n2, pat2) (mem_delKeyT (lookupKeyT_mem hpat3)) hp2
        have htne2 : dropFirst n2 ≠ name := by
          intro e
          rw [e, hpatch] at htg2
          exact absurd htg2 (by simp)
        refine ⟨n2, c2, ⟨hp2, pat2, base2,
          by rw [← lookupKeyT_delKeyT_ne acc hn2ne]; exact hpat3,
          by rw [← lookupKeyT_delKeyT_ne acc htne2]; exact hbase3,
          hcm2, h12, h22⟩, ?_⟩
        by_cases hadd : isAddName name
        · have hchk := checkAdded_pass (rowCodesOf baseRows) name (dropFirst name)
            hprc (hchkok.1 hadd)
          simp only [collapseGo, hcc, if_true, hbase, hpat]
          rw [hcodes]
          dsimp only
          rw [if_pos hadd, hchk]
          dsimp only
          rw [herr]
        · have hchk := checkRemoved_pass (rowCodesOf baseRows) name (dropFirst name)
            hprc (hchkok.2 (Bool.eq_false_iff.mpr hadd))
          simp only [collapseGo, hcc, if_true, hbase, hpat]
          rw [hcodes]
          dsimp only
          rw [if_neg hadd, hchk]
          dsimp only
          rw [herr]
    · obtain ⟨vn, vc, hvmem, hviol⟩ := hex
      have hvne : vn ≠ name := by
        intro he
        subst he
        obtain ⟨hvp, vpat, vbase, hvpat, hvbase, _, _, _⟩ := hviol
        apply hcc
        rw [Bool.and_eq_true]
        exact ⟨hvp, by simp [hasKeyT, hvbase]⟩
      have hvrest : vn ∈ rest := by
        rcases List.mem_cons.mp hvmem with he | hm
        · exact absurd he hvne
        · exact hm
      have hgo : collapseGo (name :: rest) acc = collapseGo rest acc := by
        simp only [collapseGo, if_neg hcc]
      obtain ⟨n2, c2, hviol2, herr⟩ := ih acc htw hndrest
        (fun n hn => hkeys n (List.mem_cons_of_mem _ hn)) hcode htgt
        ⟨vn, vc, hvrest, hviol⟩
      exact ⟨n2, c2, hviol2, by rw [hgo, herr]⟩


/-- C1: patch collapsing in `codelist_patches`: for every accumulated full
codelist `name.csv` that is also accumulated as a patch, an additive patch
`+name.csv` must only carry codes already in `name.csv` and a subtractive
patch `-name.csv` must only carry codes absent from `name.csv`; when every
check passes the patch entries are deleted from the returned mapping, an
informational "ignoring" line is logged per collapsed patch, and every other
entry is returned unchanged; when a check fails, resolution aborts with the
assert message naming the offending code and the two filenames. -/
theorem codelist_patch_collapsing (t : Table (List Row))
    (htw : tableWF t) (hcode : allRowsHaveCode t) (htgt : targetsNotPatches t) :
    (collapseOKb t = true →
      collapsePatches t =
        .ok (t.filter (fun p => !(collapseCond t p.1)), collapseLogsFor t (keysT t))) ∧
    (collapseOKb t = false →
      ∃ name c, collapseViol t name c ∧
        collapsePatches t = .error (violMsg name c)) := by
  constructor
  · intro hok
    have h := collapseGo_ok (keysT t) t htw htw
      (fun n hn => isSome_lookup_of_mem_keys hn) hcode htgt hok
    rw [collapsePatches, h]
    have hfix : t.filter (fun p => !(decide (p.1 ∈ keysT t) && collapseCond t p.1)) =
        t.filter (fun p => !(collapseCond t p.1)) := by
      apply List.filter_congr
      intro p hp
      have hm : p.1 ∈ keysT t := List.mem_map.mpr ⟨p, hp, rfl⟩
      simp [hm]
    rw [hfix]
  · intro hfail
    obtain ⟨name, c, hviol⟩ := collapseOKb_false hfail
    have hmem : name ∈ keysT t := by
      obtain ⟨_, patRows, _, hpat, _⟩ := hviol
      exact mem_keys_of_isSome (by simp [hpat])
    exact collapseGo_err (keysT t) t htw htw
      (fun n hn => isSome_lookup_of_mem_keys hn) hcode htgt ⟨name, c, hmem, hviol⟩

/-- Witness for C1: a full codelist accumulated together with a consistent
additive and a consistent subtractive patch; both patches are dropped and
logged, the full codelist survives unchanged. -/
theorem codelist_patch_collapsing_witness :
    (tableWF [("x.csv", [[("Code", "a")], [("Code", "b")]]),
        ("+x.csv", [[("Code", "a")]]), ("-x.csv", [[("Code", "c")]])] ∧
     allRowsHaveCode [("x.csv", [[("Code", "a")], [("Code", "b")]]),
        ("+x.csv", [[("Code", "a")]]), ("-x.csv", [[("Code", "c")]])] ∧
     targetsNotPatches [("x.csv", [[("Code", "a")], [("Code", "b")]]),
        ("+x.csv", [[("Code", "a")]]), ("-x.csv", [[("Code", "c")]])] ∧
     collapseOKb [("x.csv", [[("Code", "a")], [("Code", "b")]]),
        ("+x.csv", [[("Code", "a")]]), ("-x.csv", [[("Code", "c")]])] = true) ∧
    collapsePatches [("x.csv", [[("Code", "a")], [("Code", "b")]]),
        ("+x.csv", [[("Code", "a")]]), ("-x.csv", [[("Code", "c")]])] =
      .ok ([("x.csv", [[("Code", "a")], [("Code", "b")]]),
            ("+x.csv", [[("Code", "a")]]), ("-x.csv", [[("Code", "c")]])].filter
              (fun p => !(collapseCond [("x.csv", [[("Code", "a")], [("Code", "b")]]),
                ("+x.csv", [[("Code", "a")]]), ("-x.csv", [[("Code", "c")]])] p.1)),
        collapseLogsFor [("x.csv", [[("Code", "a")], [("Code", "b")]]),
            ("+x.csv", [[("Code", "a")]]), ("-x.csv", [[("Code", "c")]])]
          (keysT [("x.csv", [[("Code", "a")], [("Code", "b")]]),
            ("+x.csv", [[("Code", "a")]]), ("-x.csv", [[("Code", "c")]])])) := by
  refine ⟨⟨by decide, by decide, by decide, by decide⟩, ?_⟩
  exact (codelist_patch_collapsing
    [("x.csv", [[("Code", "a")], [("Code", "b")]]),
     ("+x.csv", [[("Code", "a")]]), ("-x.csv", [[("Code", "c")]])]
    (by decide) (by decide) (by decide)).1 (by decide)

/-! ### JSON model for the schema resolver (`release_schema_patch`)

JSON values as handled by `json.loads` / `json.dumps` in the source, with two
modelling restrictions that the claims do not exercise: numbers are integers,
and `\uXXXX` escapes decode to the code point directly. `dumpsVal` follows
`json.dumps` defaults: separators `", "` and `": "`, `ensure_ascii` escaping. -/

inductive Json where
  | null
  | bool (b : Bool)
  | num (n : Int)
  | str (s : String)
  | arr (elems : List Json)
  | obj (fields : List (String × Json))

def toHexChar (n : Nat) : Char :=
  if n < 10 then Char.ofNat ('0'.toNat + n) else Char.ofNat ('a'.toNat + n - 10)

/-- One character escaped as Python `json.dumps` (default `ensure_ascii`). -/
def escapeChar (c : Char) : List Char :=
  if c = '"' then ['\\', '"']
  else if c = '\\' then ['\\', '\\']
  else if c = '\n' then ['\\', 'n']
  else if c = '\t' then ['\\', 't']
  else if c = '\r' then ['\\', 'r']
  else if c = '\x08' then ['\\', 'b']
  else if c = '\x0c' then ['\\', 'f']
  else if c.toNat < 0x20 || c.toNat > 0x7e then
    if c.toNat ≤ 0xffff then
      ['\\', 'u', toHexChar (c.toNat / 4096 % 16), toHexChar (c.toNat / 256 % 16),
        toHexChar (c.toNat / 16 % 16), toHexChar (c.toNat % 16)]
    else
      let v := c.toNat - 0x10000
      let hi := 0xd800 + v / 0x400
      let lo := 0xdc00 + v % 0x400
      ['\\', 'u', toHexChar (hi / 4096 % 16), toHexChar (hi / 256 % 16),
        toHexChar (hi / 16 % 16), toHexChar (hi % 16),
       '\\', 'u', toHexChar (lo / 4096 % 16), toHexChar (lo / 256 % 16),
        toHexChar (lo / 16 % 16), toHexChar (lo % 16)]
  else [c]

def digitChar (n : Nat) : Char := Char.ofNat ('0'.toNat + n % 10)

/-- Decimal digits, most significant first (fuel-based so it computes by
kernel reduction; `natToChars_eq` is the intended unfolding). -/
def natToCharsAux : Nat → Nat → List Char
  | 0, n => [digitChar n]
  | fuel + 1, n =>
    if n < 10 then [digitChar n]
    else natToCharsAux fuel (n / 10) ++ [digitChar n]

def natToChars (n : Nat) : List Char := natToCharsAux n n

theorem natToCharsAux_irrel :
    ∀ (f1 : Nat) {f2 n : Nat}, n ≤ f1 → n ≤ f2 →
      natToCharsAux f1 n = natToCharsAux f2 n := by
  intro f1
  induction f1 with
  | zero =>
    intro f2 n h1 _
    interval_cases n
    cases f2 with
    | zero => rfl
    | succ f => simp [natToCharsAux]
  | succ f ih =>
    intro f2 n h1 h2
    by_cases hn : n < 10
    · cases f2 with
      | zero =>
        have : n = 0 := by omega
        subst this
        simp [natToCharsAux]
      | succ f' => simp [natToCharsAux, hn]
    · cases f2 with
      | zero => omega
      | succ f' =>
        simp only [natToCharsAux, if_neg hn]
        rw [@ih f' (n / 10) (by omega) (by omega)]

theorem natToChars_eq (n : Nat) :
    natToChars n = if n < 10 then [digitChar n]
      else natToChars (n / 10) ++ [digitChar n] := by
  by_cases hn : n < 10
  · cases hh : n with
    | zero => simp [natToChars, natToCharsAux, hn]
    | succ m =>
      subst hh
      simp [natToChars, natToCharsAux, hn]
  · have h10 : 10 ≤ n := by omega
    cases hh : n with
    | zero => omega
    | succ m =>
      subst hh
      simp only [natToChars, natToCharsAux, if_neg hn]
      rw [@natToCharsAux_irrel m ((m + 1) / 10) ((m + 1) / 10) (by omega) (by omega)]

def intToChars (i : Int) : List Char :=
  if i < 0 then '-' :: natToChars i.natAbs else natToChars i.natAbs

/-- A dumped string token: quote, escaped characters, quote. -/
def dumpsStrTok (s : String) : List Char :=
  '"' :: (s.data.flatMap escapeChar ++ ['"'])

mutual
/-- Python `json.dumps` output (default separators `", "` / `": "`). -/
def dumpsVal : Json → List Char
  | .null => ("null").data
  | .bool true => ("true").data
  | .bool false => ("false").data
  | .num n => intToChars n
  | .str s => dumpsStrTok s
  | .arr [] => ['[', ']']
  | .arr (x :: xs) => '[' :: (dumpsVal x ++ (dumpsElems xs ++ [']']))
  | .obj [] => ['{', '}']
  | .obj (kv :: kvs) =>
    '{' :: (dumpsStrTok kv.1 ++ ':' :: ' ' ::
      (dumpsVal kv.2 ++ (dumpsMembers kvs ++ ['}'])))
def dumpsElems : List Json → List Char
  | [] => []
  | x :: xs => ',' :: ' ' :: (dumpsVal x ++ dumpsElems xs)
def dumpsMembers : List (String × Json) → List Char
  | [] => []
  | kv :: kvs =>
    ',' :: ' ' :: (dumpsStrTok kv.1 ++ ':' :: ' ' :: (dumpsVal kv.2 ++ dumpsMembers kvs))
end

/-! ### `json.loads` model: fuel-based recursive descent -/

def isJsonWs (c : Char) : Bool := c = ' ' || c = '\t' || c = '\n' || c = '\r'

def skipJsonWs : List Char → List Char
  | c :: cs => if isJsonWs c then skipJsonWs cs else c :: cs
  | [] => []

def isDigitC (c : Char) : Bool := '0' ≤ c && c ≤ '9'

def digitsRun : List Char → List Char × List Char
  | c :: cs =>
    if isDigitC c then
      let r := digitsRun cs
      (c :: r.1, r.2)
    else ([], c :: cs)
  | [] => ([], [])

def digitsToNat (ds : List Char) : Nat :=
  ds.foldl (fun a c => a * 10 + (c.toNat - '0'.toNat)) 0

/-- JSON forbids leading zeros in number tokens. -/
def leadZero : List Char → Bool
  | '0' :: _ :: _ => true
  | _ => false

def parseIntTok (s : List Char) : Option (Int × List Char) :=
  match s with
  | '-' :: r =>
    let d := digitsRun r
    if d.1.isEmpty || leadZero d.1 then none
    else some (-(digitsToNat d.1 : Int), d.2)
  | _ =>
    let d := digitsRun s
    if d.1.isEmpty || leadZero d.1 then none
    else some ((digitsToNat d.1 : Int), d.2)

def hexVal? (c : Char) : Option Nat :=
  if ('0' ≤ c) ∧ (c ≤ '9') then some (c.toNat - ('0').toNat)
  else if ('a' ≤ c) ∧ (c ≤ 'f') then some (10 + (c.toNat - ('a').toNat))
  else if ('A' ≤ c) ∧ (c ≤ 'F') then some (10 + (c.toNat - ('A').toNat))
  else none

def unescapeChar? : Char → Option Char
  | '"' => some '"'
  | '\\' => some '\\'
  | '/' => some '/'
  | 'b' => some '\x08'
  | 'f' => some '\x0c'
  | 'n' => some '\n'
  | 'r' => some '\r'
  | 't' => some '\t'
  | _ => none

/-- The string-body scanner of `json.loads` (strict mode: raw control
characters are rejected). -/
def parseStrAcc (acc : List Char) : List Char → Option (String × List Char)
  | [] => none
  | c :: r =>
    if c = '"' then some (String.mk acc.reverse, r)
    else if c = '\\' then
      match r with
      | 'u' :: a :: b :: c2 :: d :: r2 =>
        match hexVal? a, hexVal? b, hexVal? c2, hexVal? d with
        | some va, some vb, some vc, some vd =>
          parseStrAcc (Char.ofNat (((va * 16 + vb) * 16 + vc) * 16 + vd) :: acc) r2
        | _, _, _, _ => none
      | e :: r2 =>
        match unescapeChar? e with
        | some ch => parseStrAcc (ch :: acc) r2
        | none => none
      | [] => none
    else if c.toNat < 0x20 then none
    else parseStrAcc (c :: acc) r

mutual
def parseVal (fuel : Nat) (s : List Char) : Option (Json × List Char) :=
  match fuel with
  | 0 => none
  | fuel + 1 =>
    match skipJsonWs s with
    | 'n' :: 'u' :: 'l' :: 'l' :: r => some (.null, r)
    | 't' :: 'r' :: 'u' :: 'e' :: r => some (.bool true, r)
    | 'f' :: 'a' :: 'l' :: 's' :: 'e' :: r => some (.bool false, r)
    | '"' :: r =>
      match parseStrAcc [] r with
      | some (str, r2) => some (.str str, r2)
      | none => none
    | '[' :: r =>
      (match skipJsonWs r with
       | ']' :: r2 => some (.arr [], r2)
       | r1 =>
         match parseItems fuel r1 with
         | some (xs, r2) => some (.arr xs, r2)
         | none => none)
    | '{' :: r =>
      (match skipJsonWs r with
       | '}' :: r2 => some (.obj [], r2)
       | r1 =>
         match parsePairs fuel r1 with
         | some (kvs, r2) => some (.obj kvs, r2)
         | none => none)
    | s1 =>
      match parseIntTok s1 with
      | some (i, r2) => some (.num i, r2)
      | none => none
def parseItems (fuel : Nat) (s : List Char) : Option (List Json × List Char) :=
  match fuel with
  | 0 => none
  | fuel + 1 =>
    match parseVal fuel s with
    | none => none
    | some (v, r) =>
      match skipJsonWs r with
      | ',' :: r2 =>
        (match parseItems fuel r2 with
         | some (vs, r3) => some (v :: vs, r3)
         | none => none)
      | ']' :: r2 => some ([v], r2)
      | _ => none
def parsePairs (fuel : Nat) (s : List Char) : Option (List (String × Json) × List Char) :=
  match fuel with
  | 0 => none
  | fuel + 1 =>
    match skipJsonWs s with
    | '"' :: r =>
      (match parseStrAcc [] r with
       | none => none
       | some (k, r1) =>
         match skipJsonWs r1 with
         | ':' :: r2 =>
           (match parseVal fuel r2 with
            | none => none
            | some (v, r3) =>
              match skipJsonWs r3 with
              | ',' :: r4 =>
                (match parsePairs fuel r4 with
                 | some (kvs, r5) => some ((k, v) :: kvs, r5)
                 | none => none)
              | '}' :: r4 => some ([(k, v)], r4)
              | _ => none)
         | _ => none)
    | _ => none
end

def parseTop (s : List Char) : Option Json :=
  match parseVal (s.length + 1) s with
  | some (j, r) => if (skipJsonWs r).isEmpty then some j else none
  | none => none

/-- Model of `json.loads` / `_json_loads` (insertion order preserved as the
field list order). -/
def jsonLoads (s : String) : Option Json := parseTop s.data

/-! ### The textual sentinel substitution (`re.sub(r':\s*null\b', ...)`) -/

def isPyWs (c : Char) : Bool :=
  c = ' ' || c = '\t' || c = '\n' || c = '\r' || c = '\x0b' || c = '\x0c'

def isWordChar (c : Char) : Bool :=
  ('a' ≤ c && c ≤ 'z') || ('A' ≤ c && c ≤ 'Z') || ('0' ≤ c && c ≤ '9') || c = '_'

/-- After a `:`, match `\s*null\b` and return the remainder after the match. -/
def matchNullAfter (s : List Char) : Option (List Char) :=
  match s.dropWhile isPyWs with
  | 'n' :: 'u' :: 'l' :: 'l' :: rest =>
    match rest with
    | [] => some []
    | c :: _ => if isWordChar c then none else some rest
  | _ => none

theorem matchNullAfter_length {s r : List Char} (h : matchNullAfter s = some r) :
    r.length ≤ s.length := by
  have hdw : (s.dropWhile isPyWs).length ≤ s.length :=
    (List.dropWhile_sublist isPyWs).length_le
  unfold matchNullAfter at h
  split at h
  · rename_i rest heq
    rw [heq] at hdw
    simp only [List.length_cons] at hdw
    cases rest with
    | nil =>
      simp only at h
      cases h
      simp
    | cons c1 t1 =>
      simp only at h
      by_cases hw : isWordChar c1
      · rw [if_pos hw] at h; simp at h
      · rw [if_neg hw] at h
        cases h
        simp only [List.length_cons] at hdw ⊢
        omega
  · simp at h

/-- The replacement text `': "REPLACE_WITH_NULL"'`. -/
def sentinelRepl : List Char := (": \"REPLACE_WITH_NULL\"").data

/-- The left-to-right non-overlapping scan of `re.sub` (fuel-based so it
computes by kernel reduction; `substNullChars_eq` is the unfolding). -/
def substNullAux : Nat → List Char → List Char
  | 0, s => s
  | fuel + 1, s =>
    match s with
    | [] => []
    | c :: rest =>
      if c = ':' then
        match matchNullAfter rest with
        | some rest2 => sentinelRepl ++ substNullAux fuel rest2
        | none => c :: substNullAux fuel rest
      else c :: substNullAux fuel rest

def substNullChars (s : List Char) : List Char := substNullAux s.length s

theorem substNullAux_irrel :
    ∀ (f1 : Nat) {f2 : Nat} {s : List Char}, s.length ≤ f1 → s.length ≤ f2 →
      substNullAux f1 s = substNullAux f2 s := by
  intro f1
  induction f1 with
  | zero =>
    intro f2 s h1 _
    have hs : s = [] := List.eq_nil_of_length_eq_zero (by omega)
    subst hs
    cases f2 with
    | zero => rfl
    | succ f => rfl
  | succ f ih =>
    intro f2 s h1 h2
    cases s with
    | nil =>
      cases f2 with
      | zero => rfl
      | succ f' => rfl
    | cons c rest =>
      cases f2 with
      | zero => simp at h2
      | succ f' =>
        simp only [substNullAux]
        by_cases hc : c = ':'
        · rw [if_pos hc, if_pos hc]
          cases hm : matchNullAfter rest with
          | some rest2 =>
            have hlen := matchNullAfter_length hm
            simp only [List.length_cons] at h1 h2
            dsimp only
            rw [@ih f' rest2 (by omega) (by omega)]
          | none =>
            simp only [List.length_cons] at h1 h2
            dsimp only
            rw [@ih f' rest (by omega) (by omega)]
        · rw [if_neg hc, if_neg hc]
          simp only [List.length_cons] at h1 h2
          rw [@ih f' rest (by omega) (by omega)]

theorem substNullChars_nil : substNullChars [] = [] := rfl

theorem substNullChars_eq (c : Char) (rest : List Char) :
    substNullChars (c :: rest) =
      (if c = ':' then
        match matchNullAfter rest with
        | some rest2 => sentinelRepl ++ substNullChars rest2
        | none => c :: substNullChars rest
      else c :: substNullChars rest) := by
  show substNullAux (rest.length + 1) (c :: rest) = _
  simp only [substNullAux]
  by_cases hc : c = ':'
  · rw [if_pos hc, if_pos hc]
    cases hm : matchNullAfter rest with
    | some rest2 =>
      have hlen := matchNullAfter_length hm
      dsimp only
      rw [@substNullAux_irrel rest.length rest2.length rest2 (by omega) (by omega)]
      rfl
    | none => rfl
  · rw [if_neg hc, if_neg hc]
    rfl

/-- The substitution applied in `release_schema_patch` / `replace_nulls`. -/
def substNull (s : String) : String := String.mk (substNullChars s.data)

/-- Whether the pattern `:\s*null\b` occurs anywhere in the text. -/
def hasColonNull : List Char → Bool
  | [] => false
  | c :: rest => (c = ':' && (matchNullAfter rest).isSome) || hasColonNull rest

/-! ### JSON Merge Patch (RFC 7386), as `json_merge_patch.merge` -/

mutual
/-- RFC 7386 `MergePatch(Target, Patch)`. -/
def mergePatch (target patch : Json) : Json :=
  match patch with
  | .obj fields =>
    .obj (mergeFields (match target with | .obj tf => tf | _ => []) fields)
  | p => p
def mergeFields (acc : List (String × Json)) :
    List (String × Json) → List (String × Json)
  | [] => acc
  | (k, v) :: rest =>
    match v with
    | .null => mergeFields (delKeyT acc k) rest
    | _ => mergeFields (setKeyT acc k (mergePatch ((lookupKeyT acc k).getD .null) v)) rest
end

/-! ### The sentinel and `release_schema_patch` -/

def sentinel : String := "REPLACE_WITH_NULL"

mutual
/-- The tree-level effect of textually replacing every `"REPLACE_WITH_NULL"`
string token by `null` in the serialized document. -/
def sentinelToNull : Json → Json
  | .str s => if s = sentinel then .null else .str s
  | .arr xs => .arr (stnElems xs)
  | .obj fs => .obj (stnFields fs)
  | j => j
def stnElems : List Json → List Json
  | [] => []
  | x :: xs => sentinelToNull x :: stnElems xs
def stnFields : List (String × Json) → List (String × Json)
  | [] => []
  | (k, v) :: fs => (k, sentinelToNull v) :: stnFields fs
end

/-- Python `str.replace`: replace every non-overlapping occurrence of `pat`,
scanning left to right (fuel-based; `replaceList_eq` is the unfolding). -/
def replaceAux (pat rep : List Char) : Nat → List Char → List Char
  | 0, s => s
  | fuel + 1, s =>
    match s with
    | [] => []
    | c :: rest =>
      if pat ≠ [] ∧ pat.isPrefixOf (c :: rest) then
        rep ++ replaceAux pat rep fuel ((c :: rest).drop pat.length)
      else c :: replaceAux pat rep fuel rest

def replaceList (pat rep s : List Char) : List Char := replaceAux pat rep s.length s

theorem replaceAux_irrel (pat rep : List Char) :
    ∀ (f1 : Nat) {f2 : Nat} {s : List Char}, s.length ≤ f1 → s.length ≤ f2 →
      replaceAux pat rep f1 s = replaceAux pat rep f2 s := by
  intro f1
  induction f1 with
  | zero =>
    intro f2 s h1 _
    have hs : s = [] := List.eq_nil_of_length_eq_zero (by omega)
    subst hs
    cases f2 with
    | zero => rfl
    | succ f => rfl
  | succ f ih =>
    intro f2 s h1 h2
    cases s with
    | nil =>
      cases f2 with
      | zero => rfl
      | succ f' => rfl
    | cons c rest =>
      cases f2 with
      | zero => simp at h2
      | succ f' =>
        simp only [replaceAux]
        by_cases hp : pat ≠ [] ∧ pat.isPrefixOf (c :: rest)
        · rw [if_pos hp, if_pos hp]
          have hlen : 1 ≤ pat.length := by
            cases pat with
            | nil => exact absurd rfl hp.1
            | cons p ps => simp
          simp only [List.length_cons] at h1 h2
          rw [@ih f' ((c :: rest).drop pat.length)
            (by simp only [List.length_drop, List.length_cons]; omega)
            (by simp only [List.length_drop, List.length_cons]; omega)]
        · rw [if_neg hp, if_neg hp]
          simp only [List.length_cons] at h1 h2
          rw [@ih f' rest (by omega) (by omega)]

theorem replaceList_nil (pat rep : List Char) : replaceList pat rep [] = [] := rfl

theorem replaceList_eq (pat rep : List Char) (c : Char) (rest : List Char) :
    replaceList pat rep (c :: rest) =
      (if pat ≠ [] ∧ pat.isPrefixOf (c :: rest) then
        rep ++ replaceList pat rep ((c :: rest).drop pat.length)
      else c :: replaceList pat rep rest) := by
  show replaceAux pat rep (rest.length + 1) (c :: rest) = _
  simp only [replaceAux]
  by_cases hp : pat ≠ [] ∧ pat.isPrefixOf (c :: rest)
  · rw [if_pos hp, if_pos hp]
    have hlen : 1 ≤ pat.length := by
      cases pat with
      | nil => exact absurd rfl hp.1
      | cons p ps => simp
    rw [replaceList, @replaceAux_irrel pat rep rest.length
      ((c :: rest).drop pat.length).length ((c :: rest).drop pat.length)
      (by simp only [List.length_drop, List.length_cons]; omega) (by omega)]
  · rw [if_neg hp, if_neg hp]
    rfl

def qSentinel : List Char := ('"' :: sentinel.data) ++ ['"']

def nullChars : List Char := ['n', 'u', 'l', 'l']

/-- The merge loop of `release_schema_patch`: substitute, load and merge each
extension's raw patch text in registration order. -/
def foldMerged : Json → List String → Option Json
  | acc, [] => some acc
  | acc, t :: ts =>
    match jsonLoads (substNull t) with
    | some p => foldMerged (mergePatch acc p) ts
    | none => none

/-- Translation of `ProfileBuilder.release_schema_patch`: merge the
sentinel-substituted patches, then serialize, textually replace the quoted
sentinel by `null`, and load the result. -/
def releaseSchemaPatch (texts : List String) : Option Json :=
  match foldMerged (Json.obj []) texts with
  | none => none
  | some merged =>
    jsonLoads (String.mk (replaceList qSentinel nullChars (dumpsVal merged)))

/-! ### C7: the sentinel substitution versus `null` inside string values -/

/-- Counterexample to C7 as stated: the raw text `{"a": "x: null"}` has a
string value containing `: null`; the textual regex pass of
`release_schema_patch` rewrites inside that string value, the substituted
text no longer parses, and the consolidated patch is not produced — the
string value is not "parsed unchanged". -/
theorem sentinel_subst_string_counterexample :
    jsonLoads "\x7b\"a\": \"x: null\"\x7d" =
      some (Json.obj [("a", Json.str "x: null")]) ∧
    substNull "\x7b\"a\": \"x: null\"\x7d" ≠ "\x7b\"a\": \"x: null\"\x7d" ∧
    releaseSchemaPatch ["\x7b\"a\": \"x: null\"\x7d"] = none :=
  ⟨by rfl, by decide, by rfl⟩

theorem substNullChars_id : ∀ {s : List Char}, hasColonNull s = false →
    substNullChars s = s := by
  intro s
  induction s with
  | nil => intro _; rfl
  | cons c rest ih =>
    intro h
    have h2 : hasColonNull rest = false := by
      cases hh : hasColonNull rest
      · rfl
      · rw [hasColonNull, hh, Bool.or_true] at h
        exact absurd h (by simp)
    by_cases hc : c = ':'
    · have hnone : matchNullAfter rest = none := by
        cases hmm : matchNullAfter rest with
        | none => rfl
        | some r2 =>
          rw [hasColonNull, hmm, hc] at h
          simp at h
      rw [substNullChars_eq, if_pos hc, hnone]
      dsimp only
      rw [ih h2]
    · rw [substNullChars_eq, if_neg hc, ih h2]

/-- C7 amended: the substitution is a purely textual scan, so it rewrites
`:\s*null\b` wherever it occurs, including inside JSON string values (see the
counterexample); a text is parsed unchanged into the consolidated patch
exactly in so far as it contains no such occurrence at all — in particular a
string value containing `null` not preceded by a colon is unaffected. -/
theorem sentinel_subst_textual (t : String) (h : hasColonNull t.data = false) :
    substNull t = t ∧ jsonLoads (substNull t) = jsonLoads t := by
  have hid : substNull t = t := by
    unfold substNull
    rw [substNullChars_id h]
  exact ⟨hid, by rw [hid]⟩

/-- Witness for the amended C7: a string value containing `null` (not after a
colon) passes through the substitution untouched. -/
theorem sentinel_subst_textual_witness :
    hasColonNull ("\x7b\"a\": \"has null inside\"\x7d" : String).data = false ∧
    (substNull "\x7b\"a\": \"has null inside\"\x7d" =
        "\x7b\"a\": \"has null inside\"\x7d" ∧
      jsonLoads (substNull "\x7b\"a\": \"has null inside\"\x7d") =
        jsonLoads "\x7b\"a\": \"has null inside\"\x7d") :=
  ⟨by decide, sentinel_subst_textual "\x7b\"a\": \"has null inside\"\x7d" (by decide)⟩

/-! ### C3: plain JSON values -/

/-- Printable ASCII other than quote and backslash: characters that
`json.dumps` emits verbatim and `json.loads` reads verbatim. -/
def plainChar (c : Char) : Bool :=
  (0x20 ≤ c.toNat && c.toNat ≤ 0x7e) && c ≠ '"' && c ≠ '\\'

def plainStrB (s : String) : Bool := s.data.all plainChar

mutual
/-- All strings (values and keys) of the value consist of plain characters. -/
def plainVal : Json → Bool
  | .str s => plainStrB s
  | .arr xs => plainElems xs
  | .obj fs => plainFields fs
  | _ => true
def plainElems : List Json → Bool
  | [] => true
  | x :: xs => plainVal x && plainElems xs
def plainFields : List (String × Json) → Bool
  | [] => true
  | (k, v) :: fs => plainStrB k && plainVal v && plainFields fs
end

mutual
/-- No object key anywhere in the value equals the sentinel string. -/
def noSentKey : Json → Bool
  | .arr xs => nskElems xs
  | .obj fs => nskFields fs
  | _ => true
def nskElems : List Json → Bool
  | [] => true
  | x :: xs => noSentKey x && nskElems xs
def nskFields : List (String × Json) → Bool
  | [] => true
  | (k, v) :: fs => (k ≠ sentinel) && noSentKey v && nskFields fs
end

mutual
/-- The sentinel string appears nowhere in the value: not as a string leaf
and not as an object key. -/
def noSentAnywhere : Json → Bool
  | .str s => s ≠ sentinel
  | .arr xs => nsaElems xs
  | .obj fs => nsaFields fs
  | _ => true
def nsaElems : List Json → Bool
  | [] => true
  | x :: xs => noSentAnywhere x && nsaElems xs
def nsaFields : List (String × Json) → Bool
  | [] => true
  | (k, v) :: fs => (k ≠ sentinel) && noSentAnywhere v && nsaFields fs
end

theorem plainChar_spec {c : Char} (h : plainChar c = true) :
    0x20 ≤ c.toNat ∧ c.toNat ≤ 0x7e ∧ c ≠ '"' ∧ c ≠ '\\' := by
  simp only [plainChar, Bool.and_eq_true, decide_eq_true_eq] at h
  exact ⟨h.1.1.1, h.1.1.2, h.1.2, h.2⟩

theorem char_eq_of_toNat {c : Char} {n : Nat} (h : c.toNat = n) :
    c = Char.ofNat n := by
  have h2 : Char.ofNat c.toNat = Char.ofNat n := by rw [h]
  rw [Char.ofNat_toNat] at h2
  exact h2

theorem isDigitC_toNat {c : Char} (h : isDigitC c = true) :
    48 ≤ c.toNat ∧ c.toNat ≤ 57 := by
  simp only [isDigitC, Bool.and_eq_true, decide_eq_true_eq] at h
  exact ⟨h.1, h.2⟩

/-- A decimal digit is not whitespace and not any of the structural
characters of the JSON grammar. -/
theorem digit_facts {c : Char} (h : isDigitC c = true) :
    isJsonWs c = false ∧ c ≠ 'n' ∧ c ≠ 't' ∧ c ≠ 'f' ∧ c ≠ '"' ∧ c ≠ '[' ∧
      c ≠ '{' ∧ c ≠ ']' ∧ c ≠ '}' ∧ c ≠ ',' ∧ c ≠ '-' := by
  obtain ⟨h1, h2⟩ := isDigitC_toNat h
  have hsp : c ≠ ' ' := by intro e; subst e; exact absurd h1 (by decide)
  have hta : c ≠ '\t' := by intro e; subst e; exact absurd h1 (by decide)
  have hnl : c ≠ '\n' := by intro e; subst e; exact absurd h1 (by decide)
  have hcr : c ≠ '\r' := by intro e; subst e; exact absurd h1 (by decide)
  refine ⟨by simp [isJsonWs, hsp, hta, hnl, hcr], ?_, ?_, ?_, ?_, ?_, ?_, ?_, ?_, ?_, ?_⟩
  · intro e; subst e; exact absurd h2 (by decide)
  · intro e; subst e; exact absurd h2 (by decide)
  · intro e; subst e; exact absurd h2 (by decide)
  · intro e; subst e; exact absurd h1 (by decide)
  · intro e; subst e; exact absurd h2 (by decide)
  · intro e; subst e; exact absurd h2 (by decide)
  · intro e; subst e; exact absurd h2 (by decide)
  · intro e; subst e; exact absurd h2 (by decide)
  · intro e; subst e; exact absurd h1 (by decide)
  · intro e; subst e; exact absurd h1 (by decide)

/-! ### C3: the number token round-trips through `parseIntTok` -/

theorem digitChar_toNat (n : Nat) : (digitChar n).toNat = 48 + n % 10 := by
  have h : n % 10 < 10 := Nat.mod_lt _ (by omega)
  unfold digitChar
  generalize hm : n % 10 = m at h ⊢
  interval_cases m <;> decide

theorem digitChar_digit (n : Nat) : isDigitC (digitChar n) = true := by
  simp only [isDigitC, Bool.and_eq_true, decide_eq_true_eq]
  constructor
  · show 48 ≤ (digitChar n).toNat
    rw [digitChar_toNat]; omega
  · show (digitChar n).toNat ≤ 57
    rw [digitChar_toNat]; omega

theorem natToChars_ne_nil (n : Nat) : natToChars n ≠ [] := by
  rw [natToChars_eq]
  split
  · simp
  · simp

theorem natToChars_all_digits : ∀ n : Nat, ∀ c ∈ natToChars n, isDigitC c = true := by
  intro n
  induction n using Nat.strong_induction_on with
  | _ n ih =>
    intro c hc
    rw [natToChars_eq] at hc
    by_cases hn : n < 10
    · rw [if_pos hn] at hc
      simp only [List.mem_singleton] at hc
      subst hc; exact digitChar_digit n
    · rw [if_neg hn] at hc
      rcases List.mem_append.mp hc with h | h
      · exact ih (n / 10) (by omega) c h
      · simp only [List.mem_singleton] at h
        subst h; exact digitChar_digit n

theorem natToChars_head_digit (n : Nat) :
    ∃ d t, natToChars n = d :: t ∧ isDigitC d = true := by
  cases hh : natToChars n with
  | nil => exact absurd hh (natToChars_ne_nil n)
  | cons d t =>
    exact ⟨d, t, rfl, natToChars_all_digits n d (by rw [hh]; simp)⟩

theorem natToChars_head_pos : ∀ n : Nat, 1 ≤ n →
    ∃ d t, natToChars n = d :: t ∧ isDigitC d = true ∧ d ≠ '0' := by
  intro n
  induction n using Nat.strong_induction_on with
  | _ n ih =>
    intro hpos
    rw [natToChars_eq]
    by_cases hn : n < 10
    · rw [if_pos hn]
      refine ⟨digitChar n, [], rfl, digitChar_digit n, ?_⟩
      intro e
      have hv := digitChar_toNat n
      rw [e] at hv
      rw [Nat.mod_eq_of_lt hn] at hv
      have h0 : ('0').toNat = 48 := by decide
      omega
    · rw [if_neg hn]
      obtain ⟨d, t, hdt, hd, hd0⟩ := ih (n / 10) (by omega) (by omega)
      exact ⟨d, t ++ [digitChar n], by rw [hdt]; rfl, hd, hd0⟩

theorem digitsToNat_append_one (ds : List Char) (d : Char) :
    digitsToNat (ds ++ [d]) = digitsToNat ds * 10 + (d.toNat - 48) := by
  unfold digitsToNat
  rw [List.foldl_append]
  rfl

theorem digitsToNat_natToChars : ∀ n : Nat, digitsToNat (natToChars n) = n := by
  intro n
  induction n using Nat.strong_induction_on with
  | _ n ih =>
    rw [natToChars_eq]
    by_cases hn : n < 10
    · rw [if_pos hn]
      have h1 : digitsToNat [digitChar n] =
          0 * 10 + ((digitChar n).toNat - ('0').toNat) := rfl
      have h0 : ('0').toNat = 48 := by decide
      rw [h1, h0, digitChar_toNat]
      omega
    · rw [if_neg hn, digitsToNat_append_one, ih (n / 10) (by omega), digitChar_toNat]
      omega

/-- The continuation after a number token must not begin with a digit. -/
def numStop : List Char → Prop
  | [] => True
  | c :: _ => isDigitC c = false

theorem digitsRun_append : ∀ (ds rest : List Char), (∀ c ∈ ds, isDigitC c = true) →
    numStop rest → digitsRun (ds ++ rest) = (ds, rest) := by
  intro ds
  induction ds with
  | nil =>
    intro rest _ hstop
    cases rest with
    | nil => rfl
    | cons c cs =>
      have hc : isDigitC c = false := hstop
      simp only [List.nil_append]
      unfold digitsRun
      simp [hc]
  | cons d ds ih =>
    intro rest hds hstop
    have hd : isDigitC d = true := hds d (by simp)
    simp only [List.cons_append]
    unfold digitsRun
    simp only [hd, if_true]
    rw [ih rest (fun c hc => hds c (by simp [hc])) hstop]

theorem leadZero_singleton (d : Char) : leadZero [d] = false := by
  unfold leadZero
  split
  · rename_i heq
    injection heq with _ h2
    simp at h2
  · rfl

theorem leadZero_cons_ne {d : Char} (t : List Char) (h : d ≠ '0') :
    leadZero (d :: t) = false := by
  unfold leadZero
  split
  · rename_i heq
    injection heq with h1 _
    exact absurd h1 h
  · rfl

theorem leadZero_natToChars (n : Nat) : leadZero (natToChars n) = false := by
  by_cases hn : n = 0
  · subst hn
    rw [natToChars_eq, if_pos (by omega : (0 : Nat) < 10)]
    exact leadZero_singleton _
  · obtain ⟨d, t, hdt, _, hd0⟩ := natToChars_head_pos n (by omega)
    rw [hdt]
    exact leadZero_cons_ne t hd0

theorem parseIntTok_neg (r : List Char) :
    parseIntTok ('-' :: r) =
      (if (digitsRun r).1.isEmpty || leadZero (digitsRun r).1 then none
       else some (-(digitsToNat (digitsRun r).1 : Int), (digitsRun r).2)) := rfl

theorem parseIntTok_pos {c : Char} (hc : c ≠ '-') (r : List Char) :
    parseIntTok (c :: r) =
      (if (digitsRun (c :: r)).1.isEmpty || leadZero (digitsRun (c :: r)).1 then none
       else some ((digitsToNat (digitsRun (c :: r)).1 : Int), (digitsRun (c :: r)).2)) := by
  unfold parseIntTok
  split
  · rename_i heq
    injection heq with h1 _
    exact absurd h1 hc
  · rfl

theorem parseIntTok_rt (i : Int) (rest : List Char) (hstop : numStop rest) :
    parseIntTok (intToChars i ++ rest) = some (i, rest) := by
  have hrun : digitsRun (natToChars i.natAbs ++ rest) = (natToChars i.natAbs, rest) :=
    digitsRun_append _ _ (natToChars_all_digits _) hstop
  have hne : (natToChars i.natAbs).isEmpty = false := by
    cases hh : natToChars i.natAbs with
    | nil => exact absurd hh (natToChars_ne_nil _)
    | cons a b => rfl
  have hlz : leadZero (natToChars i.natAbs) = false := leadZero_natToChars _
  by_cases hneg : i < 0
  · rw [intToChars, if_pos hneg, List.cons_append, parseIntTok_neg, hrun]
    simp only [hne, hlz, Bool.or_self, if_false, Bool.false_or]
    rw [digitsToNat_natToChars]
    have : -(i.natAbs : Int) = i := by omega
    rw [this]
    simp
  · obtain ⟨d, t, hdt, hd⟩ := natToChars_head_digit i.natAbs
    have hdm : d ≠ '-' := (digit_facts hd).2.2.2.2.2.2.2.2.2.2
    rw [intToChars, if_neg hneg, hdt, List.cons_append,
      parseIntTok_pos hdm, ← List.cons_append, ← hdt, hrun]
    simp only [hne, hlz, Bool.or_self, if_false, Bool.false_or]
    rw [digitsToNat_natToChars]
    have : (i.natAbs : Int) = i := by omega
    rw [this]
    simp

/-! ### C3: plain strings are serialized verbatim and parsed back -/

theorem escapeChar_plain {c : Char} (h : plainChar c = true) : escapeChar c = [c] := by
  obtain ⟨h1, h2, h3, h4⟩ := plainChar_spec h
  have hn : c ≠ '\n' := by intro e; subst e; exact absurd h1 (by decide)
  have ht : c ≠ '\t' := by intro e; subst e; exact absurd h1 (by decide)
  have hr : c ≠ '\r' := by intro e; subst e; exact absurd h1 (by decide)
  have hb : c ≠ '\x08' := by intro e; subst e; exact absurd h1 (by decide)
  have hf : c ≠ '\x0c' := by intro e; subst e; exact absurd h1 (by decide)
  unfold escapeChar
  rw [if_neg h3, if_neg h4, if_neg hn, if_neg ht, if_neg hr, if_neg hb, if_neg hf,
    if_neg (by simp only [Bool.or_eq_true, decide_eq_true_eq]; omega)]

theorem flatMap_escape_plain : ∀ {l : List Char}, l.all plainChar = true →
    l.flatMap escapeChar = l := by
  intro l
  induction l with
  | nil => intro _; rfl
  | cons c cs ih =>
    intro h
    rw [List.all_cons, Bool.and_eq_true] at h
    rw [List.flatMap_cons, escapeChar_plain h.1, ih h.2]
    rfl

theorem dumpsStrTok_plain {s : String} (h : plainStrB s = true) :
    dumpsStrTok s = '"' :: (s.data ++ ['"']) := by
  unfold dumpsStrTok
  rw [flatMap_escape_plain h]

theorem parseStrAcc_plain : ∀ (content acc rest : List Char),
    content.all plainChar = true →
    parseStrAcc acc (content ++ '"' :: rest) =
      some (String.mk (acc.reverse ++ content), rest) := by
  intro content
  induction content with
  | nil =>
    intro acc rest _
    simp only [List.nil_append]
    conv_lhs => rw [parseStrAcc.eq_def]
    dsimp only
    rw [if_pos rfl]
    simp
  | cons c cs ih =>
    intro acc rest h
    rw [List.all_cons, Bool.and_eq_true] at h
    obtain ⟨h1, h2, h3, h4⟩ := plainChar_spec h.1
    simp only [List.cons_append]
    conv_lhs => rw [parseStrAcc.eq_def]
    dsimp only
    rw [if_neg h3, if_neg h4, if_neg (by omega : ¬c.toNat < 0x20)]
    rw [ih (c :: acc) rest h.2]
    simp

/-! ### C3: parser branch selection -/

theorem skipJsonWs_cons {c : Char} (h : isJsonWs c = false) (s : List Char) :
    skipJsonWs (c :: s) = c :: s := by
  simp [skipJsonWs, h]

theorem parseVal_ws (fuel : Nat) (s : List Char) :
    parseVal fuel (' ' :: s) = parseVal fuel s := by
  cases fuel with
  | zero => rfl
  | succ f =>
    simp only [parseVal]
    rw [show skipJsonWs (' ' :: s) = skipJsonWs s from rfl]

theorem parseItems_ws (fuel : Nat) (s : List Char) :
    parseItems fuel (' ' :: s) = parseItems fuel s := by
  cases fuel with
  | zero => rfl
  | succ f =>
    simp only [parseItems]
    rw [parseVal_ws]

theorem parsePairs_ws (fuel : Nat) (s : List Char) :
    parsePairs fuel (' ' :: s) = parsePairs fuel s := by
  cases fuel with
  | zero => rfl
  | succ f =>
    simp only [parsePairs]
    rw [show skipJsonWs (' ' :: s) = skipJsonWs s from rfl]

/-- When the first character selects none of the literal, string, array or
object branches, `parseVal` falls through to the number branch. -/
theorem parseVal_other (fuel : Nat) {c : Char} (x : List Char)
    (hws : isJsonWs c = false) (hn : c ≠ 'n') (ht : c ≠ 't') (hf : c ≠ 'f')
    (hq : c ≠ '"') (hlb : c ≠ '[') (hob : c ≠ '{') :
    parseVal (fuel + 1) (c :: x) =
      (parseIntTok (c :: x)).map (fun p => (Json.num p.1, p.2)) := by
  simp only [parseVal]
  rw [skipJsonWs_cons hws]
  split
  · rename_i heq; injection heq with h1 _; exact absurd h1 hn
  · rename_i heq; injection heq with h1 _; exact absurd h1 ht
  · rename_i heq; injection heq with h1 _; exact absurd h1 hf
  · rename_i heq; injection heq with h1 _; exact absurd h1 hq
  · rename_i heq; injection heq with h1 _; exact absurd h1 hlb
  · rename_i heq; injection heq with h1 _; exact absurd h1 hob
  · cases hpi : parseIntTok (c :: x) with
    | none => rfl
    | some p =>
      obtain ⟨i, r⟩ := p
      rfl

/-- A character that can open a serialized value: not whitespace and not a
closing bracket. -/
def goodHead (c : Char) : Bool := !(isJsonWs c) && c ≠ ']' && c ≠ '}'

theorem dumpsVal_head (j : Json) :
    ∃ d t, dumpsVal j = d :: t ∧ isJsonWs d = false ∧ d ≠ ']' ∧ d ≠ '}' := by
  suffices h : ∃ d t, dumpsVal j = d :: t ∧ goodHead d = true by
    obtain ⟨d, t, hdt, hg⟩ := h
    simp only [goodHead, Bool.and_eq_true, Bool.not_eq_true',
      decide_eq_true_eq] at hg
    exact ⟨d, t, hdt, hg.1.1, hg.1.2, hg.2⟩
  cases j with
  | num i =>
    by_cases hneg : i < 0
    · refine ⟨'-', natToChars i.natAbs, ?_, by decide⟩
      simp [dumpsVal, intToChars, hneg]
    · obtain ⟨d, t, hdt, hd⟩ := natToChars_head_digit i.natAbs
      obtain ⟨hws, _, _, _, _, _, _, hrb, hcb, _, _⟩ := digit_facts hd
      refine ⟨d, t, ?_, ?_⟩
      · simp [dumpsVal, intToChars, hneg, hdt]
      · simp [goodHead, hws, hrb, hcb]
  | bool b => rcases b with _ | _ <;> exact ⟨_, _, rfl, by decide⟩
  | null => exact ⟨'n', _, rfl, by decide⟩
  | str s => exact ⟨'"', _, rfl, by decide⟩
  | arr xs => rcases xs with _ | ⟨x, xs⟩ <;> exact ⟨'[', _, rfl, by decide⟩
  | obj fs => rcases fs with _ | ⟨kv, kvs⟩ <;> exact ⟨'{', _, rfl, by decide⟩

theorem dumpsVal_length_pos (j : Json) : 1 ≤ (dumpsVal j).length := by
  obtain ⟨d, t, hdt, _, _, _⟩ := dumpsVal_head j
  rw [hdt]
  simp

/-! ### C3: `parseVal` branch equations for concrete head characters -/

theorem parseVal_null (fuel : Nat) (r : List Char) :
    parseVal (fuel + 1) ('n' :: 'u' :: 'l' :: 'l' :: r) = some (Json.null, r) := rfl

theorem parseVal_true (fuel : Nat) (r : List Char) :
    parseVal (fuel + 1) ('t' :: 'r' :: 'u' :: 'e' :: r) = some (Json.bool true, r) := rfl

theorem parseVal_false (fuel : Nat) (r : List Char) :
    parseVal (fuel + 1) ('f' :: 'a' :: 'l' :: 's' :: 'e' :: r) =
      some (Json.bool false, r) := rfl

theorem parseVal_quote (fuel : Nat) (x : List Char) :
    parseVal (fuel + 1) ('"' :: x) =
      (match parseStrAcc [] x with
       | some (s1, r2) => some (Json.str s1, r2)
       | none => none) := rfl

theorem parseVal_lbracket (fuel : Nat) (x : List Char) :
    parseVal (fuel + 1) ('[' :: x) =
      (match skipJsonWs x with
       | ']' :: r2 => some (Json.arr [], r2)
       | r1 =>
         match parseItems fuel r1 with
         | some (xs, r2) => some (Json.arr xs, r2)
         | none => none) := rfl

theorem parseVal_lbrace (fuel : Nat) (x : List Char) :
    parseVal (fuel + 1) ('{' :: x) =
      (match skipJsonWs x with
       | '}' :: r2 => some (Json.obj [], r2)
       | r1 =>
         match parsePairs fuel r1 with
         | some (kvs, r2) => some (Json.obj kvs, r2)
         | none => none) := rfl

theorem parsePairs_quote (fuel : Nat) (x : List Char) :
    parsePairs (fuel + 1) ('"' :: x) =
      (match parseStrAcc [] x with
       | none => none
       | some (k, r1) =>
         match skipJsonWs r1 with
         | ':' :: r2 =>
           (match parseVal fuel r2 with
            | none => none
            | some (v, r3) =>
              match skipJsonWs r3 with
              | ',' :: r4 =>
                (match parsePairs fuel r4 with
                 | some (kvs, r5) => some ((k, v) :: kvs, r5)
                 | none => none)
              | '}' :: r4 => some ([(k, v)], r4)
              | _ => none)
         | _ => none) := rfl

theorem parseVal_arr_nil (fuel : Nat) (r : List Char) :
    parseVal (fuel + 1) ('[' :: ']' :: r) = some (Json.arr [], r) := rfl

theorem parseVal_obj_nil (fuel : Nat) (r : List Char) :
    parseVal (fuel + 1) ('{' :: '}' :: r) = some (Json.obj [], r) := rfl

/-! ### C3: the serializer/parser round trip on plain values -/

/-- `json.loads` parses `json.dumps` output back to the same plain value
(joint statement for values, array items and object members, by induction
on the parser fuel). -/
theorem rt_parse : ∀ fuel : Nat,
    (∀ (j : Json) (rest : List Char), plainVal j = true → numStop rest →
      (dumpsVal j).length + 1 ≤ fuel →
      parseVal fuel (dumpsVal j ++ rest) = some (j, rest)) ∧
    (∀ (x : Json) (xs : List Json) (rest : List Char), plainVal x = true →
      plainElems xs = true →
      (dumpsVal x).length + (dumpsElems xs).length + 2 ≤ fuel →
      parseItems fuel (dumpsVal x ++ (dumpsElems xs ++ ']' :: rest)) =
        some (x :: xs, rest)) ∧
    (∀ (k : String) (v : Json) (fs : List (String × Json)) (rest : List Char),
      plainStrB k = true → plainVal v = true → plainFields fs = true →
      (dumpsStrTok k).length + (dumpsVal v).length +
        (dumpsMembers fs).length + 4 ≤ fuel →
      parsePairs fuel (dumpsStrTok k ++
          (':' :: ' ' :: (dumpsVal v ++ (dumpsMembers fs ++ '}' :: rest)))) =
        some ((k, v) :: fs, rest)) := by
  intro fuel
  induction fuel with
  | zero =>
    refine ⟨?_, ?_, ?_⟩
    · intro j rest _ _ hfuel; omega
    · intro x xs rest _ _ hfuel; omega
    · intro k v fs rest _ _ _ hfuel; omega
  | succ f ih =>
    obtain ⟨ihv, ihi, ihp⟩ := ih
    refine ⟨?_, ?_, ?_⟩
    · intro j rest hp hstop hfuel
      cases j with
      | null =>
        rw [show dumpsVal Json.null = ['n', 'u', 'l', 'l'] from rfl]
        simp only [List.cons_append, List.nil_append]
        exact parseVal_null f rest
      | bool b =>
        cases b with
        | true =>
          rw [show dumpsVal (Json.bool true) = ['t', 'r', 'u', 'e'] from rfl]
          simp only [List.cons_append, List.nil_append]
          exact parseVal_true f rest
        | false =>
          rw [show dumpsVal (Json.bool false) = ['f', 'a', 'l', 's', 'e'] from rfl]
          simp only [List.cons_append, List.nil_append]
          exact parseVal_false f rest
      | num i =>
        have hrt := parseIntTok_rt i rest hstop
        rw [show dumpsVal (Json.num i) = intToChars i from rfl]
        by_cases hneg : i < 0
        · rw [intToChars, if_pos hneg] at hrt ⊢
          rw [List.cons_append] at hrt ⊢
          rw [parseVal_other f _ (by decide) (by decide) (by decide) (by decide)
            (by decide) (by decide) (by decide), hrt]
          rfl
        · obtain ⟨d, t, hdt, hd⟩ := natToChars_head_digit i.natAbs
          obtain ⟨hwsd, hn2, ht2, hf2, hq2, hlb2, hob2, _, _, _, _⟩ := digit_facts hd
          rw [intToChars, if_neg hneg, hdt, List.cons_append] at hrt ⊢
          rw [parseVal_other f _ hwsd hn2 ht2 hf2 hq2 hlb2 hob2, hrt]
          rfl
      | str s =>
        have hps : plainStrB s = true := hp
        rw [show dumpsVal (Json.str s) = dumpsStrTok s from rfl, dumpsStrTok_plain hps]
        simp only [List.cons_append, List.append_assoc, List.singleton_append,
          List.nil_append]
        rw [parseVal_quote, parseStrAcc_plain s.data [] rest hps]
        dsimp only
        cases s with
        | mk d => simp
      | arr xs =>
        cases xs with
        | nil =>
          rw [show dumpsVal (Json.arr []) = ['[', ']'] from rfl]
          simp only [List.cons_append, List.nil_append]
          exact parseVal_arr_nil f rest
        | cons x xs =>
          simp only [plainVal, plainElems, Bool.and_eq_true] at hp
          obtain ⟨hpx, hpxs⟩ := hp
          rw [show dumpsVal (Json.arr (x :: xs)) =
            '[' :: (dumpsVal x ++ (dumpsElems xs ++ [']'])) from rfl] at hfuel ⊢
          simp only [List.length_cons, List.length_append, List.length_nil] at hfuel
          simp only [List.cons_append, List.append_assoc, List.singleton_append,
            List.nil_append]
          rw [parseVal_lbracket f _]
          obtain ⟨d, t, hdt, hwsd, hrbd, hcbd⟩ := dumpsVal_head x
          rw [hdt, List.cons_append, skipJsonWs_cons hwsd]
          split
          · rename_i heq
            injection heq with h1 _
            exact absurd h1 hrbd
          · rw [← List.cons_append, ← hdt,
              ihi x xs rest hpx hpxs (by omega)]
      | obj fs =>
        cases fs with
        | nil =>
          rw [show dumpsVal (Json.obj []) = ['{', '}'] from rfl]
          simp only [List.cons_append, List.nil_append]
          exact parseVal_obj_nil f rest
        | cons kv kvs =>
          obtain ⟨k, v⟩ := kv
          simp only [plainVal, plainFields, Bool.and_eq_true] at hp
          obtain ⟨⟨hpk, hpv⟩, hpfs⟩ := hp
          rw [show dumpsVal (Json.obj ((k, v) :: kvs)) =
            '{' :: (dumpsStrTok k ++ ':' :: ' ' ::
              (dumpsVal v ++ (dumpsMembers kvs ++ ['}']))) from rfl] at hfuel ⊢
          simp only [List.length_cons, List.length_append, List.length_nil] at hfuel
          simp only [List.cons_append, List.append_assoc, List.singleton_append,
            List.nil_append]
          rw [parseVal_lbrace f _]
          have htok : dumpsStrTok k = '"' :: (k.data ++ ['"']) := dumpsStrTok_plain hpk
          rw [htok, List.cons_append, skipJsonWs_cons (by decide)]
          split
          · rename_i heq
            injection heq with h1 _
            exact absurd h1 (by decide)
          · rw [← List.cons_append, ← htok,
              ihp k v kvs rest hpk hpv hpfs (by omega)]
    · intro x xs rest hpx hpxs hfuel
      have hstop2 : numStop (dumpsElems xs ++ ']' :: rest) := by
        cases xs with
        | nil =>
          have h : isDigitC ']' = false := by decide
          exact h
        | cons y ys =>
          have h : isDigitC ',' = false := by decide
          exact h
      simp only [parseItems]
      rw [ihv x (dumpsElems xs ++ ']' :: rest) hpx hstop2 (by omega)]
      dsimp only
      cases xs with
      | nil =>
        simp only [dumpsElems, List.nil_append]
        rw [skipJsonWs_cons (by decide)]
        split
        · rename_i heq
          injection heq with h1 _
          exact absurd h1 (by decide)
        · rename_i heq
          injection heq with _ h2
          subst h2
          rfl
        · rename_i hne1 hne2
          exact absurd rfl (hne2 rest)
      | cons y ys =>
        simp only [plainElems, Bool.and_eq_true] at hpxs
        obtain ⟨hpy, hpys⟩ := hpxs
        rw [show dumpsElems (y :: ys) =
          ',' :: ' ' :: (dumpsVal y ++ dumpsElems ys) from rfl] at hfuel ⊢
        simp only [List.length_cons, List.length_append] at hfuel
        simp only [List.cons_append, List.append_assoc]
        rw [skipJsonWs_cons (by decide)]
        split
        · rename_i heq
          injection heq with _ h2
          subst h2
          rw [parseItems_ws, ihi y ys rest hpy hpys (by omega)]
        · rename_i heq
          injection heq with h1 _
          exact absurd h1 (by decide)
        · rename_i hne1 hne2
          exact absurd rfl (hne1 _)
    · intro k v fs rest hpk hpv hpfs hfuel
      have hstop3 : numStop (dumpsMembers fs ++ '}' :: rest) := by
        cases fs with
        | nil =>
          have h : isDigitC '}' = false := by decide
          exact h
        | cons kv2 fs2 =>
          have h : isDigitC ',' = false := by decide
          exact h
      have hkk : String.mk (List.reverse ([] : List Char) ++ k.data) = k := by
        cases k with
        | mk d => rfl
      rw [dumpsStrTok_plain hpk] at hfuel ⊢
      simp only [List.length_cons, List.length_append, List.length_nil] at hfuel
      simp only [List.cons_append, List.append_assoc, List.singleton_append,
        List.nil_append]
      rw [parsePairs_quote f _, parseStrAcc_plain k.data [] _ hpk]
      dsimp only
      rw [hkk, skipJsonWs_cons (by decide)]
      split
      · rename_i heq
        injection heq with _ h2
        subst h2
        rw [parseVal_ws, ihv v (dumpsMembers fs ++ '}' :: rest) hpv hstop3 (by omega)]
        dsimp only
        cases fs with
        | nil =>
          simp only [dumpsMembers, List.nil_append]
          rw [skipJsonWs_cons (by decide)]
          split
          · rename_i heq2
            injection heq2 with h1 _
            exact absurd h1 (by decide)
          · rename_i heq2
            injection heq2 with _ h2
            subst h2
            rfl
          · rename_i hne1 hne2
            exact absurd rfl (hne2 rest)
        | cons kv2 fs2 =>
          obtain ⟨k2, v2⟩ := kv2
          simp only [plainFields, Bool.and_eq_true] at hpfs
          obtain ⟨⟨hpk2, hpv2⟩, hpfs2⟩ := hpfs
          rw [show dumpsMembers ((k2, v2) :: fs2) =
            ',' :: ' ' :: (dumpsStrTok k2 ++ ':' :: ' ' ::
              (dumpsVal v2 ++ dumpsMembers fs2)) from rfl] at hfuel ⊢
          simp only [List.length_cons, List.length_append] at hfuel
          simp only [List.cons_append, List.append_assoc]
          rw [skipJsonWs_cons (by decide)]
          split
          · rename_i heq2
            injection heq2 with _ h2
            subst h2
            rw [parsePairs_ws, ihp k2 v2 fs2 rest hpk2 hpv2 hpfs2 (by omega)]
          · rename_i heq2
            injection heq2 with h1 _
            exact absurd h1 (by decide)
          · rename_i hne1 hne2
            exact absurd rfl (hne1 _)
      · rename_i hne
        exact absurd rfl (hne _)

theorem rt_val (j : Json) (fuel : Nat) (rest : List Char)
    (hp : plainVal j = true) (hstop : numStop rest)
    (hfuel : (dumpsVal j).length + 1 ≤ fuel) :
    parseVal fuel (dumpsVal j ++ rest) = some (j, rest) :=
  (rt_parse fuel).1 j rest hp hstop hfuel

/-! ### C3: top-level round trip and `sentinelToNull` preservation -/

theorem parseTop_dumps {j : Json} (hp : plainVal j = true) :
    parseTop (dumpsVal j) = some j := by
  unfold parseTop
  have h := rt_val j ((dumpsVal j).length + 1) [] hp trivial (by omega)
  rw [List.append_nil] at h
  rw [h]
  rfl

theorem jsonLoads_dumps {j : Json} (hp : plainVal j = true) :
    jsonLoads (String.mk (dumpsVal j)) = some j := parseTop_dumps hp

mutual

theorem stn_plain : ∀ (j : Json), plainVal j = true →
    plainVal (sentinelToNull j) = true
  | .null => fun _ => rfl
  | .bool _ => fun _ => rfl
  | .num _ => fun _ => rfl
  | .str s => fun h => by
      rw [show sentinelToNull (.str s) =
        (if s = sentinel then Json.null else Json.str s) from rfl]
      by_cases hs : s = sentinel
      · rw [if_pos hs]; rfl
      · rw [if_neg hs]; exact h
  | .arr xs => fun h => stn_plainElems xs h
  | .obj fs => fun h => stn_plainFields fs h

theorem stn_plainElems : ∀ (xs : List Json), plainElems xs = true →
    plainElems (stnElems xs) = true
  | [] => fun _ => rfl
  | x :: xs => fun h => by
      rw [show stnElems (x :: xs) = sentinelToNull x :: stnElems xs from rfl]
      simp only [plainElems, Bool.and_eq_true] at h ⊢
      exact ⟨stn_plain x h.1, stn_plainElems xs h.2⟩

theorem stn_plainFields : ∀ (fs : List (String × Json)), plainFields fs = true →
    plainFields (stnFields fs) = true
  | [] => fun _ => rfl
  | (k, v) :: fs => fun h => by
      rw [show stnFields ((k, v) :: fs) = (k, sentinelToNull v) :: stnFields fs from rfl]
      simp only [plainFields, Bool.and_eq_true] at h ⊢
      exact ⟨⟨h.1.1, stn_plain v h.1.2⟩, stn_plainFields fs h.2⟩

end

mutual

theorem stn_nosent : ∀ (j : Json), noSentKey j = true →
    noSentAnywhere (sentinelToNull j) = true
  | .null => fun _ => rfl
  | .bool _ => fun _ => rfl
  | .num _ => fun _ => rfl
  | .str s => fun _ => by
      rw [show sentinelToNull (.str s) =
        (if s = sentinel then Json.null else Json.str s) from rfl]
      by_cases hs : s = sentinel
      · rw [if_pos hs]; rfl
      · rw [if_neg hs]
        simp [noSentAnywhere, hs]
  | .arr xs => fun h => stn_nosentElems xs h
  | .obj fs => fun h => stn_nosentFields fs h

theorem stn_nosentElems : ∀ (xs : List Json), nskElems xs = true →
    nsaElems (stnElems xs) = true
  | [] => fun _ => rfl
  | x :: xs => fun h => by
      rw [show stnElems (x :: xs) = sentinelToNull x :: stnElems xs from rfl]
      simp only [nskElems, Bool.and_eq_true] at h
      simp only [nsaElems, Bool.and_eq_true]
      exact ⟨stn_nosent x h.1, stn_nosentElems xs h.2⟩

theorem stn_nosentFields : ∀ (fs : List (String × Json)), nskFields fs = true →
    nsaFields (stnFields fs) = true
  | [] => fun _ => rfl
  | (k, v) :: fs => fun h => by
      rw [show stnFields ((k, v) :: fs) = (k, sentinelToNull v) :: stnFields fs from rfl]
      simp only [nskFields, Bool.and_eq_true] at h
      simp only [nsaFields, Bool.and_eq_true]
      exact ⟨⟨h.1.1, stn_nosent v h.1.2⟩, stn_nosentFields fs h.2⟩

end

/-- `sentinelToNull` maps each field pointwise: lookups are mapped. -/
theorem lookupKeyT_stnFields : ∀ (fs : List (String × Json)) (key : String),
    lookupKeyT (stnFields fs) key = (lookupKeyT fs key).map sentinelToNull
  | [], _ => rfl
  | (k, v) :: fs, key => by
      rw [show stnFields ((k, v) :: fs) = (k, sentinelToNull v) :: stnFields fs from rfl]
      simp only [lookupKeyT]
      by_cases hk : k = key
      · rw [if_pos hk, if_pos hk]
        rfl
      · rw [if_neg hk, if_neg hk]
        exact lookupKeyT_stnFields fs key

/-! ### C3: the back-substitution `str.replace('"REPLACE_WITH_NULL"', 'null')`
on dumped output -/

/-- Continuations that may legally follow a serialized value inside a
serialized document. -/
def safeHead : List Char → Prop
  | [] => True
  | c :: _ => c = ',' ∨ c = ':' ∨ c = ']' ∨ c = '}'

theorem string_data_inj {a b : String} (h : a.data = b.data) : a = b := by
  cases a with
  | mk d1 =>
    cases b with
    | mk d2 =>
      exact congrArg String.mk h

/-- The scan passes over quote-free text verbatim (the pattern starts with a
quote). -/
theorem replaceList_noquote : ∀ (p : List Char) (b : List Char),
    (∀ c ∈ p, c ≠ '"') →
    replaceList qSentinel nullChars (p ++ b) =
      p ++ replaceList qSentinel nullChars b := by
  intro p
  induction p with
  | nil => intro b _; simp
  | cons c cs ih =>
    intro b hp
    rw [List.cons_append, replaceList_eq]
    have hnm : ¬(qSentinel ≠ [] ∧ qSentinel.isPrefixOf (c :: (cs ++ b))) := by
      rintro ⟨_, hpf⟩
      rw [show qSentinel = '"' :: (sentinel.data ++ ['"']) from rfl] at hpf
      rw [List.isPrefixOf_iff_prefix] at hpf
      rcases List.cons_prefix_cons.mp hpf with ⟨h1, _⟩
      exact absurd h1.symm (hp c (by simp))
    rw [if_neg hnm, ih b (fun c2 hc2 => hp c2 (by simp [hc2]))]
    rfl

/-- If a quote-free word followed by a quote is a prefix of quote-free
content followed by a quote, the word is the content. -/
theorem quoted_token_eq : ∀ (w content b : List Char),
    (∀ c ∈ w, c ≠ '"') → (∀ c ∈ content, c ≠ '"') →
    (w ++ ['"']).isPrefixOf (content ++ '"' :: b) = true → w = content := by
  intro w
  induction w with
  | nil =>
    intro content b _ hcont hpf
    cases content with
    | nil => rfl
    | cons c cc =>
      simp only [List.nil_append, List.cons_append] at hpf
      rw [List.isPrefixOf_iff_prefix] at hpf
      rcases List.cons_prefix_cons.mp hpf with ⟨h1, _⟩
      exact absurd h1.symm (hcont c (by simp))
  | cons x w ih =>
    intro content b hw hcont hpf
    cases content with
    | nil =>
      simp only [List.nil_append, List.cons_append] at hpf
      rw [List.isPrefixOf_iff_prefix] at hpf
      rcases List.cons_prefix_cons.mp hpf with ⟨h1, _⟩
      exact absurd h1 (hw x (by simp))
    | cons c cc =>
      simp only [List.cons_append] at hpf
      rw [List.isPrefixOf_iff_prefix] at hpf
      rcases List.cons_prefix_cons.mp hpf with ⟨h1, h2⟩
      rw [← List.isPrefixOf_iff_prefix] at h2
      rw [h1, ih cc b (fun c2 hc2 => hw c2 (by simp [hc2]))
        (fun c2 hc2 => hcont c2 (by simp [hc2])) h2]

/-- A dumped plain string token other than the quoted sentinel passes
through the replacement verbatim. -/
theorem replaceList_token {content : List Char} (b : List Char)
    (hcont : ∀ c ∈ content, c ≠ '"') (hne : content ≠ sentinel.data)
    (hb : safeHead b) :
    replaceList qSentinel nullChars (('"' :: (content ++ ['"'])) ++ b) =
      ('"' :: (content ++ ['"'])) ++ replaceList qSentinel nullChars b := by
  rw [show ('"' :: (content ++ ['"'])) ++ b = '"' :: (content ++ ('"' :: b)) by simp]
  rw [replaceList_eq]
  have hnm : ¬(qSentinel ≠ [] ∧ qSentinel.isPrefixOf ('"' :: (content ++ '"' :: b))) := by
    rintro ⟨_, hpf⟩
    rw [show qSentinel = '"' :: (sentinel.data ++ ['"']) from rfl] at hpf
    rw [List.isPrefixOf_iff_prefix] at hpf
    rcases List.cons_prefix_cons.mp hpf with ⟨_, h2⟩
    rw [← List.isPrefixOf_iff_prefix] at h2
    have heq := quoted_token_eq sentinel.data content b (by decide) hcont h2
    exact hne heq.symm
  rw [if_neg hnm]
  rw [replaceList_noquote content ('"' :: b) hcont]
  rw [replaceList_eq]
  have hnm2 : ¬(qSentinel ≠ [] ∧ qSentinel.isPrefixOf ('"' :: b)) := by
    rintro ⟨_, hpf⟩
    rw [show qSentinel = '"' :: (sentinel.data ++ ['"']) from rfl] at hpf
    rw [List.isPrefixOf_iff_prefix] at hpf
    rcases List.cons_prefix_cons.mp hpf with ⟨_, h2⟩
    cases b with
    | nil => simp at h2
    | cons c bb =>
      rw [show sentinel.data ++ ['"'] =
        'R' :: (("EPLACE_WITH_NULL").data ++ ['"']) from rfl] at h2
      rcases List.cons_prefix_cons.mp h2 with ⟨h3, _⟩
      rcases hb with h | h | h | h <;> (subst h; exact absurd h3 (by decide))
  rw [if_neg hnm2]
  simp

/-- The quoted sentinel token is replaced by `null`. -/
theorem replaceList_sentinel (b : List Char) :
    replaceList qSentinel nullChars (qSentinel ++ b) =
      nullChars ++ replaceList qSentinel nullChars b := by
  rw [show qSentinel ++ b = '"' :: ((sentinel.data ++ ['"']) ++ b) by simp [qSentinel]]
  rw [replaceList_eq]
  have hm : qSentinel ≠ [] ∧
      qSentinel.isPrefixOf ('"' :: ((sentinel.data ++ ['"']) ++ b)) := by
    constructor
    · decide
    · rw [List.isPrefixOf_iff_prefix,
        show ('"' : Char) :: ((sentinel.data ++ ['"']) ++ b) = qSentinel ++ b by
          simp [qSentinel]]
      exact List.prefix_append _ _
  rw [if_pos hm]
  rfl

mutual

/-- On the dumped form of a plain value with no sentinel-valued key, the
textual `.replace('"REPLACE_WITH_NULL"', 'null')` acts exactly as the
tree-level `sentinelToNull`. -/
theorem repl_val : ∀ (j : Json) (b : List Char), plainVal j = true →
    noSentKey j = true → safeHead b →
    replaceList qSentinel nullChars (dumpsVal j ++ b) =
      dumpsVal (sentinelToNull j) ++ replaceList qSentinel nullChars b
  | .null => fun b _ _ _ => replaceList_noquote ['n', 'u', 'l', 'l'] b (by decide)
  | .bool true => fun b _ _ _ => replaceList_noquote ['t', 'r', 'u', 'e'] b (by decide)
  | .bool false => fun b _ _ _ =>
      replaceList_noquote ['f', 'a', 'l', 's', 'e'] b (by decide)
  | .num i => fun b _ _ _ => by
      have hq : ∀ c ∈ intToChars i, c ≠ '"' := by
        intro c hc
        unfold intToChars at hc
        by_cases hneg : i < 0
        · rw [if_pos hneg] at hc
          rcases List.mem_cons.mp hc with h | h
          · subst h; decide
          · exact (digit_facts (natToChars_all_digits _ c h)).2.2.2.2.1
        · rw [if_neg hneg] at hc
          exact (digit_facts (natToChars_all_digits _ c hc)).2.2.2.2.1
      exact replaceList_noquote (intToChars i) b hq
  | .str s => fun b hp hk hb => by
      have hps : plainStrB s = true := hp
      have hq : ∀ c ∈ s.data, c ≠ '"' := by
        intro c hc
        have hall : ∀ c2 ∈ s.data, plainChar c2 = true := List.all_eq_true.mp hps
        exact (plainChar_spec (hall c hc)).2.2.1
      by_cases hs : s = sentinel
      · subst hs
        have hqt : dumpsVal (Json.str sentinel) = qSentinel := by
          rw [show dumpsVal (Json.str sentinel) = dumpsStrTok sentinel from rfl,
            dumpsStrTok_plain (by decide)]
          simp [qSentinel]
        rw [hqt, replaceList_sentinel b]
        rfl
      · rw [show dumpsVal (Json.str s) = dumpsStrTok s from rfl, dumpsStrTok_plain hps]
        have hcs : s.data ≠ sentinel.data := fun e => hs (string_data_inj e)
        rw [replaceList_token b hq hcs hb]
        rw [show dumpsVal (sentinelToNull (Json.str s)) = dumpsStrTok s from by
          rw [show sentinelToNull (Json.str s) =
            (if s = sentinel then Json.null else Json.str s) from rfl, if_neg hs]
          rfl]
        rw [dumpsStrTok_plain hps]
  | .arr [] => fun b _ _ _ => replaceList_noquote ['[', ']'] b (by decide)
  | .arr (x :: xs) => fun b hp hk hb => by
      simp only [plainVal, plainElems, Bool.and_eq_true] at hp
      simp only [noSentKey, nskElems, Bool.and_eq_true] at hk
      have hsafe1 : safeHead (dumpsElems xs ++ (']' :: b)) := by
        cases xs with
        | nil => exact Or.inr (Or.inr (Or.inl rfl))
        | cons y ys => exact Or.inl rfl
      have hsafe2 : safeHead (']' :: b) := Or.inr (Or.inr (Or.inl rfl))
      rw [show dumpsVal (Json.arr (x :: xs)) ++ b =
        ['['] ++ (dumpsVal x ++ (dumpsElems xs ++ (']' :: b))) by
          rw [show dumpsVal (Json.arr (x :: xs)) =
            '[' :: (dumpsVal x ++ (dumpsElems xs ++ [']'])) from rfl]
          simp]
      rw [replaceList_noquote ['['] _ (by decide)]
      rw [repl_val x (dumpsElems xs ++ (']' :: b)) hp.1 hk.1 hsafe1]
      rw [repl_elems xs (']' :: b) hp.2 hk.2 hsafe2]
      rw [show (']' : Char) :: b = [']'] ++ b from rfl,
        replaceList_noquote [']'] b (by decide)]
      rw [show sentinelToNull (Json.arr (x :: xs)) =
        Json.arr (sentinelToNull x :: stnElems xs) from rfl]
      rw [show dumpsVal (Json.arr (sentinelToNull x :: stnElems xs)) =
        '[' :: (dumpsVal (sentinelToNull x) ++
          (dumpsElems (stnElems xs) ++ [']'])) from rfl]
      simp
  | .obj [] => fun b _ _ _ => replaceList_noquote ['{', '}'] b (by decide)
  | .obj ((k, v) :: fs) => fun b hp hk hb => by
      simp only [plainVal, plainFields, Bool.and_eq_true] at hp
      simp only [noSentKey, nskFields, Bool.and_eq_true, decide_eq_true_eq] at hk
      have hqk : ∀ c ∈ k.data, c ≠ '"' := by
        intro c hc
        have hall : ∀ c2 ∈ k.data, plainChar c2 = true := List.all_eq_true.mp hp.1.1
        exact (plainChar_spec (hall c hc)).2.2.1
      have hck : k.data ≠ sentinel.data := fun e => hk.1.1 (string_data_inj e)
      have hsafe1 : safeHead (dumpsMembers fs ++ ('}' :: b)) := by
        cases fs with
        | nil => exact Or.inr (Or.inr (Or.inr rfl))
        | cons kv2 fs2 => exact Or.inl rfl
      have hsafe2 : safeHead ('}' :: b) := Or.inr (Or.inr (Or.inr rfl))
      have hsafe3 :
          safeHead (':' :: ' ' :: (dumpsVal v ++ (dumpsMembers fs ++ ('}' :: b)))) :=
        Or.inr (Or.inl rfl)
      rw [show dumpsVal (Json.obj ((k, v) :: fs)) ++ b =
        ['{'] ++ (('"' :: (k.data ++ ['"'])) ++ (':' :: ' ' ::
          (dumpsVal v ++ (dumpsMembers fs ++ ('}' :: b))))) by
          rw [show dumpsVal (Json.obj ((k, v) :: fs)) =
            '{' :: (dumpsStrTok k ++ ':' :: ' ' ::
              (dumpsVal v ++ (dumpsMembers fs ++ ['}']))) from rfl,
            dumpsStrTok_plain hp.1.1]
          simp]
      rw [replaceList_noquote ['{'] _ (by decide)]
      rw [replaceList_token _ hqk hck hsafe3]
      rw [show (':' : Char) :: ' ' :: (dumpsVal v ++ (dumpsMembers fs ++ ('}' :: b))) =
        [':', ' '] ++ (dumpsVal v ++ (dumpsMembers fs ++ ('}' :: b))) from rfl]
      rw [replaceList_noquote [':', ' '] _ (by decide)]
      rw [repl_val v (dumpsMembers fs ++ ('}' :: b)) hp.1.2 hk.1.2 hsafe1]
      rw [repl_members fs ('}' :: b) hp.2 hk.2 hsafe2]
      rw [show ('}' : Char) :: b = ['}'] ++ b from rfl,
        replaceList_noquote ['}'] b (by decide)]
      rw [show sentinelToNull (Json.obj ((k, v) :: fs)) =
        Json.obj ((k, sentinelToNull v) :: stnFields fs) from rfl]
      rw [show dumpsVal (Json.obj ((k, sentinelToNull v) :: stnFields fs)) =
        '{' :: (dumpsStrTok k ++ ':' :: ' ' ::
          (dumpsVal (sentinelToNull v) ++
            (dumpsMembers (stnFields fs) ++ ['}']))) from rfl,
        dumpsStrTok_plain hp.1.1]
      simp

theorem repl_elems : ∀ (xs : List Json) (b : List Char), plainElems xs = true →
    nskElems xs = true → safeHead b →
    replaceList qSentinel nullChars (dumpsElems xs ++ b) =
      dumpsElems (stnElems xs) ++ replaceList qSentinel nullChars b
  | [] => fun b _ _ _ => rfl
  | x :: xs => fun b hp hk hb => by
      simp only [plainElems, Bool.and_eq_true] at hp
      simp only [nskElems, Bool.and_eq_true] at hk
      have hsafe1 : safeHead (dumpsElems xs ++ b) := by
        cases xs with
        | nil => exact hb
        | cons y ys => exact Or.inl rfl
      rw [show dumpsElems (x :: xs) ++ b =
        [',', ' '] ++ (dumpsVal x ++ (dumpsElems xs ++ b)) by
          rw [show dumpsElems (x :: xs) =
            ',' :: ' ' :: (dumpsVal x ++ dumpsElems xs) from rfl]
          simp]
      rw [replaceList_noquote [',', ' '] _ (by decide)]
      rw [repl_val x (dumpsElems xs ++ b) hp.1 hk.1 hsafe1]
      rw [repl_elems xs b hp.2 hk.2 hb]
      rw [show stnElems (x :: xs) = sentinelToNull x :: stnElems xs from rfl]
      rw [show dumpsElems (sentinelToNull x :: stnElems xs) =
        ',' :: ' ' :: (dumpsVal (sentinelToNull x) ++
          dumpsElems (stnElems xs)) from rfl]
      simp

theorem repl_members : ∀ (fs : List (String × Json)) (b : List Char),
    plainFields fs = true → nskFields fs = true → safeHead b →
    replaceList qSentinel nullChars (dumpsMembers fs ++ b) =
      dumpsMembers (stnFields fs) ++ replaceList qSentinel nullChars b
  | [] => fun b _ _ _ => rfl
  | (k, v) :: fs => fun b hp hk hb => by
      simp only [plainFields, Bool.and_eq_true] at hp
      simp only [nskFields, Bool.and_eq_true, decide_eq_true_eq] at hk
      have hqk : ∀ c ∈ k.data, c ≠ '"' := by
        intro c hc
        have hall : ∀ c2 ∈ k.data, plainChar c2 = true := List.all_eq_true.mp hp.1.1
        exact (plainChar_spec (hall c hc)).2.2.1
      have hck : k.data ≠ sentinel.data := fun e => hk.1.1 (string_data_inj e)
      have hsafe1 : safeHead (dumpsMembers fs ++ b) := by
        cases fs with
        | nil => exact hb
        | cons kv2 fs2 => exact Or.inl rfl
      have hsafe3 : safeHead (':' :: ' ' :: (dumpsVal v ++ (dumpsMembers fs ++ b))) :=
        Or.inr (Or.inl rfl)
      rw [show dumpsMembers ((k, v) :: fs) ++ b =
        [',', ' '] ++ (('"' :: (k.data ++ ['"'])) ++ (':' :: ' ' ::
          (dumpsVal v ++ (dumpsMembers fs ++ b)))) by
          rw [show dumpsMembers ((k, v) :: fs) =
            ',' :: ' ' :: (dumpsStrTok k ++ ':' :: ' ' ::
              (dumpsVal v ++ dumpsMembers fs)) from rfl,
            dumpsStrTok_plain hp.1.1]
          simp]
      rw [replaceList_noquote [',', ' '] _ (by decide)]
      rw [replaceList_token _ hqk hck hsafe3]
      rw [show (':' : Char) :: ' ' :: (dumpsVal v ++ (dumpsMembers fs ++ b)) =
        [':', ' '] ++ (dumpsVal v ++ (dumpsMembers fs ++ b)) from rfl]
      rw [replaceList_noquote [':', ' '] _ (by decide)]
      rw [repl_val v (dumpsMembers fs ++ b) hp.1.2 hk.1.2 hsafe1]
      rw [repl_members fs b hp.2 hk.2 hb]
      rw [show stnFields ((k, v) :: fs) = (k, sentinelToNull v) :: stnFields fs from rfl]
      rw [show dumpsMembers ((k, sentinelToNull v) :: stnFields fs) =
        ',' :: ' ' :: (dumpsStrTok k ++ ':' :: ' ' ::
          (dumpsVal (sentinelToNull v) ++ dumpsMembers (stnFields fs))) from rfl,
        dumpsStrTok_plain hp.1.1]
      simp

end

/-- C3: Null-sentinel round trip in `release_schema_patch`: each raw patch
text has its `: null` occurrences replaced by the sentinel string before
parsing and merging (`foldMerged` applies `substNull` before `jsonLoads`);
after merging, serializing and textually replacing the quoted sentinel back
by `null`, the returned consolidated patch is exactly the merged tree with
every sentinel leaf turned into a literal `null`. Consequently a key whose
merged value is the sentinel (an extension's explicit null) appears in the
returned patch with value `null` rather than being absent, and the sentinel
string appears nowhere in the returned patch. Stated for merged trees whose
strings are plain printable ASCII and whose keys are not themselves the
sentinel. -/
theorem release_schema_patch_null_roundtrip (texts : List String) (merged : Json)
    (hm : foldMerged (Json.obj []) texts = some merged)
    (hp : plainVal merged = true) (hk : noSentKey merged = true) :
    releaseSchemaPatch texts = some (sentinelToNull merged) ∧
    (∀ fs k, merged = Json.obj fs →
      lookupKeyT fs k = some (Json.str sentinel) →
      sentinelToNull merged = Json.obj (stnFields fs) ∧
        lookupKeyT (stnFields fs) k = some Json.null) ∧
    noSentAnywhere (sentinelToNull merged) = true := by
  have hrepl := repl_val merged [] hp hk trivial
  rw [List.append_nil, replaceList_nil] at hrepl
  rw [List.append_nil] at hrepl
  refine ⟨?_, ?_, stn_nosent merged hk⟩
  · unfold releaseSchemaPatch
    rw [hm]
    dsimp only
    rw [hrepl]
    exact jsonLoads_dumps (stn_plain merged hp)
  · intro fs k hobj hlook
    constructor
    · rw [hobj]
      rfl
    · rw [lookupKeyT_stnFields, hlook]
      rfl

/-- Witness for C3 at a concrete pair of patch texts: the second extension
sets `"a"` to `null`; the consolidated patch keeps the key with value
`null`. -/
theorem release_schema_patch_null_roundtrip_witness :
    foldMerged (Json.obj []) ["\x7b\"a\": 1, \"b\": 2\x7d", "\x7b\"a\": null\x7d"] =
      some (Json.obj [("a", Json.str sentinel), ("b", Json.num 2)]) ∧
    plainVal (Json.obj [("a", Json.str sentinel), ("b", Json.num 2)]) = true ∧
    noSentKey (Json.obj [("a", Json.str sentinel), ("b", Json.num 2)]) = true ∧
    releaseSchemaPatch ["\x7b\"a\": 1, \"b\": 2\x7d", "\x7b\"a\": null\x7d"] =
      some (Json.obj [("a", Json.null), ("b", Json.num 2)]) ∧
    lookupKeyT (stnFields [("a", Json.str sentinel), ("b", Json.num 2)]) "a" =
      some Json.null ∧
    noSentAnywhere (Json.obj [("a", Json.null), ("b", Json.num 2)]) = true := by
  have h := release_schema_patch_null_roundtrip
    ["\x7b\"a\": 1, \"b\": 2\x7d", "\x7b\"a\": null\x7d"]
    (Json.obj [("a", Json.str sentinel), ("b", Json.num 2)])
    (by rfl) (by decide) (by decide)
  refine ⟨by rfl, by decide, by decide, ?_, ?_, by decide⟩
  · exact h.1.trans (by rfl)
  · exact (h.2.1 [("a", Json.str sentinel), ("b", Json.num 2)] "a" rfl (by rfl)).2

end ODS
